import Mathlib

/-!
Shallow embedding of the frame-production/frame-presentation pipeline of
`directmedia_framework`: the single-producer/single-consumer command queue
(`src/util/conqueue.c`), the frame pipeline (`src/render/frames.c`), and the
render-thread shutdown handshake (`src/main/private/prog.c`).

The C code is sequentialized: the atomic loads/stores and memory barriers
collapse to ordinary state reads and writes, and each public operation is a
pure function from state to state.  Pointer identity of heap objects is
modelled by `Nat` identifiers drawn from monotone counters (in the C code no
frame pointer held by `latest_frame` is ever freed and reused while still
held, so fresh identifiers are a sound model of pointer comparison).
Callback invocations are recorded as an explicit event trace; the boolean
results of the `update`/`draw` callbacks are supplied by an environment
keyed on the command's opaque state pointer.
-/

set_option maxHeartbeats 1000000

namespace DirectMedia

/-! ## Command queue (`src/util/conqueue.c`), value behavior

A `conqueue_object` is a sentinel node plus a singly linked chain of nodes.
`chain` lists the values of the nodes reachable from the current sentinel
(`queue->dequeue`) through `next` pointers, in link order.  The sentinel's
own `value` field is never read by the code, so it is not modelled. -/

structure conqueue_object (V : Type) where
  chain : List V
  deriving Repr, DecidableEq

/-- `conqueue_create`: one sentinel node, empty chain. -/
def conqueue_create {V : Type} : conqueue_object V := ⟨[]⟩

/-- `conqueue_enqueue`: allocates a node holding `value`, links it after the
current tail and advances the tail.  Allocation is modelled as succeeding,
so the `Bool` result (false only on allocation failure) is always `true`.
The C code asserts `value != NULL`; values here are inherently non-null. -/
def conqueue_enqueue {V : Type} (queue : conqueue_object V) (value : V) :
    Bool × conqueue_object V :=
  (true, ⟨queue.chain ++ [value]⟩)

/-- `conqueue_dequeue`: reads the sentinel's `next`; if null the queue is
empty and `NULL` (here `none`) is returned with the queue unchanged;
otherwise the sentinel is retired, the head advances, and the value of the
new head node is returned. -/
def conqueue_dequeue {V : Type} (queue : conqueue_object V) :
    Option V × conqueue_object V :=
  match queue.chain with
  | [] => (none, queue)
  | value :: rest => (some value, ⟨rest⟩)

/-- Enqueue a whole list of values in order. -/
def conqueue_enqueue_list {V : Type} (queue : conqueue_object V)
    (values : List V) : conqueue_object V :=
  match values with
  | [] => queue
  | v :: rest => conqueue_enqueue_list (conqueue_enqueue queue v).2 rest

/-- Repeatedly dequeue until `conqueue_dequeue` returns `none`, collecting
the returned values in order (structural form; `conqueue_drain_step` shows
it is the iteration of `conqueue_dequeue`). -/
def conqueue_drain {V : Type} : conqueue_object V → List V
  | ⟨[]⟩ => []
  | ⟨v :: rest⟩ => v :: conqueue_drain ⟨rest⟩

/-- One drain step is exactly one `conqueue_dequeue` call. -/
lemma conqueue_drain_step {V : Type} (queue : conqueue_object V) :
    conqueue_drain queue =
      match conqueue_dequeue queue with
      | (none, _) => []
      | (some v, queue') => v :: conqueue_drain queue' := by
  cases queue with
  | mk chain => cases chain <;> simp [conqueue_drain, conqueue_dequeue]

lemma conqueue_enqueue_list_chain {V : Type} (values : List V) :
    ∀ queue : conqueue_object V,
      (conqueue_enqueue_list queue values).chain = queue.chain ++ values := by
  induction values with
  | nil => intro queue; simp [conqueue_enqueue_list]
  | cons v rest ih =>
    intro queue
    simp [conqueue_enqueue_list, conqueue_enqueue, ih]

lemma conqueue_drain_eq_chain {V : Type} (queue : conqueue_object V) :
    conqueue_drain queue = queue.chain := by
  cases queue with
  | mk chain =>
    induction chain with
    | nil => simp [conqueue_drain]
    | cons v rest ih => simp [conqueue_drain, ih]

/-! ## Command queue (`src/util/conqueue.c`), debug-build thread contract

In debug builds (`#ifndef NDEBUG`) the queue additionally carries
`SDL_atomic_t consumer_set` and `SDL_threadID consumer`.  This projection
of the queue state models only that machinery; operations take the calling
thread's id (`SDL_ThreadID()`) and return whether every `assert` in the
operation held.  The code is sequentialized: the CAS on `consumer_set`
succeeds exactly when the field is 0, and the spin-wait for the value 2
terminates immediately. -/

structure conqueue_dbg where
  consumer_set : Nat
  consumer : Nat
  deriving Repr, DecidableEq

/-- Debug fields of a freshly created queue: `consumer_set` is 0
(`conqueue_create` initializes it with `SDL_AtomicSet(&queue->consumer_set, 0)`);
`consumer` is uninitialized and modelled as 0, never read before being set. -/
def conqueue_dbg_create : conqueue_dbg := ⟨0, 0⟩

/-- `assert_current_thread_is_consumer`: CAS `consumer_set` from 0 to 1; on
success latch `consumer := SDL_ThreadID()` and store 2; then spin until
`consumer_set = 2` and assert the calling thread is the latched consumer.
Returns whether the assertion held, plus the updated debug state. -/
def assert_current_thread_is_consumer (tid : Nat) (queue : conqueue_dbg) :
    Bool × conqueue_dbg :=
  if queue.consumer_set = 0 then
    (true, ⟨2, tid⟩)
  else
    (decide (tid = queue.consumer), queue)

/-- Thread-contract content of `conqueue_enqueue`: the function's only
assertion is `assert(queue != NULL && value != NULL)` — both guaranteed
here by typing — and it neither reads nor writes `consumer_set`/`consumer`;
the calling thread's identity is ignored. -/
def conqueue_enqueue_dbg (tid : Nat) (queue : conqueue_dbg) :
    Bool × conqueue_dbg :=
  let _ := tid
  (true, queue)

/-- Thread-contract content of `conqueue_dequeue`: it calls
`assert_current_thread_is_consumer` before touching the chain. -/
def conqueue_dequeue_dbg (tid : Nat) (queue : conqueue_dbg) :
    Bool × conqueue_dbg :=
  assert_current_thread_is_consumer tid queue

/-- Thread-contract content of `conqueue_destroy`: it calls
`assert_current_thread_is_consumer`, then drains (whose inner
`conqueue_dequeue` calls re-assert the same latched consumer). -/
def conqueue_destroy_dbg (tid : Nat) (queue : conqueue_dbg) :
    Bool × conqueue_dbg :=
  assert_current_thread_is_consumer tid queue

/-! ## Frame pipeline (`src/render/frames.c`)

`command_funcs` holds three nullable function pointers; here each slot is
a `Bool` recording whether the pointer is non-NULL.  A `command_object`
pairs the funcs with the opaque `state` pointer, modelled as a `Nat`
identifier that also serves to name the command in the event trace.  The
boolean results of the `update`/`draw` callbacks during a pass are supplied
by a `callback_env` keyed on that identifier.  `queue_object` (the
producer-private command list, `src/util/queue.c`) and `conqueue_object`
(the shared frame FIFO) are both FIFO lists here; GL calls (`glFlush`,
`SDL_GL_SwapWindow`) and the callbacks themselves are recorded as events. -/

/-- `frames_status_type` from `src/render/frames.h`. -/
inductive frames_status_type where
  | FRAMES_STATUS_SUCCESS
  | FRAMES_STATUS_NO_START
  | FRAMES_STATUS_NO_END
  | FRAMES_STATUS_NO_FRAMES
  | FRAMES_STATUS_ERROR
  deriving Repr, DecidableEq

export frames_status_type (FRAMES_STATUS_SUCCESS FRAMES_STATUS_NO_START
  FRAMES_STATUS_NO_END FRAMES_STATUS_NO_FRAMES FRAMES_STATUS_ERROR)

structure command_funcs where
  has_update : Bool
  has_draw : Bool
  has_destroy : Bool
  deriving Repr, DecidableEq

structure command_object where
  funcs : command_funcs
  state : Nat
  deriving Repr, DecidableEq

/-- Results the `update`/`draw` callbacks return during one pass, keyed on
the command's `state` pointer. -/
structure callback_env where
  update_ok : Nat → Bool
  draw_ok : Nat → Bool

/-- An environment in which every callback succeeds. -/
def all_ok_env : callback_env := ⟨fun _ => true, fun _ => true⟩

/-- Observable actions of a pass: callback invocations, `glFlush`, and the
`SDL_GL_SwapWindow` present. -/
inductive event where
  | update (state : Nat)
  | draw (state : Nat)
  | destroy (state : Nat)
  | flush
  | present
  deriving Repr, DecidableEq

structure frame_object where
  commands : List command_object
  ended : Bool
  fid : Nat
  deriving Repr, DecidableEq

/-- `frames_object`.  `frame_queues` is the shared conqueue of frames
(FIFO, head oldest); `latest_frame` holds the `fid` of the frame the
atomic pointer designates (`none` = NULL); `next_latest_frame` is the
producer's in-progress frame.  `next_fid` is the fresh-identifier counter
modelling allocation of distinct frame pointers.  `rendered_fids` is a
history variable (not present in the C struct): the identifiers of frames
that have been processed as the matched latest frame by
`frames_draw_latest`, newest first; it is used only to state the
monotonic-progression invariant. -/
structure frames_object where
  frame_queues : List frame_object
  next_latest_frame : Option frame_object
  latest_frame : Option Nat
  next_fid : Nat
  rendered_fids : List Nat
  deriving Repr, DecidableEq

/-- `frames_create`: empty conqueue, no in-progress frame, NULL latest
(the struct is `mem_calloc`ed, so both pointers start NULL). -/
def frames_create : frames_object := ⟨[], none, none, 0, []⟩

/-- `frames_start`: allocate a fresh frame with an empty command queue and
`ended = false` and store it in `next_latest_frame`.  Allocation is
modelled as succeeding, so the result is always `FRAMES_STATUS_SUCCESS`. -/
def frames_start (frames : frames_object) :
    frames_status_type × frames_object :=
  (FRAMES_STATUS_SUCCESS,
   { frames with
      next_latest_frame := some ⟨[], false, frames.next_fid⟩
      next_fid := frames.next_fid + 1 })

/-- `frames_enqueue_command`: append one command to the in-progress frame's
command queue.  The C function asserts `frames->next_latest_frame != NULL`;
that precondition is the `none` case here.  Allocation is modelled as
succeeding, so the `Bool` result is always `true` when defined. -/
def frames_enqueue_command (frames : frames_object) (funcs : command_funcs)
    (state : Nat) : Option frames_object :=
  match frames.next_latest_frame with
  | none => none
  | some frame =>
    some { frames with
            next_latest_frame :=
              some { frame with commands := frame.commands ++ [⟨funcs, state⟩] } }

/-- `frames_end`: set `ended = true` on the in-progress frame, enqueue it
into the shared FIFO, and release-publish it as `latest_frame`.  The C
function asserts `frames->next_latest_frame != NULL` (the `none` case).
After the call the producer must not touch the frame again (§ ownership
transfer); the C code leaves `next_latest_frame` as a stale pointer it may
no longer use, modelled by clearing it to `none`. -/
def frames_end (frames : frames_object) : Option frames_object :=
  match frames.next_latest_frame with
  | none => none
  | some frame =>
    let sealed := { frame with ended := true }
    some { frames with
            frame_queues := frames.frame_queues ++ [sealed]
            latest_frame := some sealed.fid
            next_latest_frame := none }

/-- Inner command loop shared by `frames_draw_latest` (with
`draw_now = (frame == latest_frame)`) and `frames_destroy` (with
`draw_now = false`): dequeue each command; run `update` if non-NULL,
aborting on `false`; run `draw` if `draw_now` and non-NULL, aborting on
`false` (`frames_destroy` never draws); then run `destroy` if non-NULL.
Returns the events emitted in order and whether a callback failed. -/
def run_commands (env : callback_env) (draw_now : Bool) :
    List command_object → List event × Bool
  | [] => ([], false)
  | command :: rest =>
    if command.funcs.has_update && !env.update_ok command.state then
      ([event.update command.state], true)
    else
      let upd := if command.funcs.has_update then [event.update command.state] else []
      if draw_now && command.funcs.has_draw && !env.draw_ok command.state then
        (upd ++ [event.draw command.state], true)
      else
        let drw := if draw_now && command.funcs.has_draw
                   then [event.draw command.state] else []
        let dst := if command.funcs.has_destroy
                   then [event.destroy command.state] else []
        let (evs, failed) := run_commands env draw_now rest
        (upd ++ drw ++ dst ++ evs, failed)

/-- Result of the frame-drain loop of `frames_draw_latest`. -/
structure drain_out where
  fifo : List frame_object
  latest : Option Nat
  ended : Bool
  matched : Bool
  events : List event
  failed : Bool
  deriving Repr, DecidableEq

/-- The drain loop of `frames_draw_latest`: dequeue whole frames from the
shared FIFO until it is empty.  `latest_ptr` is the frame pointer captured
by the acquire load at entry; `latest_field` threads the current value of
the shared `latest_frame` field; `ended` threads the local `ended`
variable.  For each frame: run its commands (aborting the whole call on a
callback failure, leaving the not-yet-dequeued frames in the FIFO and the
`latest_frame` field as it currently stands); then `glFlush` if the frame
is not the captured latest, else CAS the `latest_frame` field from
`latest_ptr` to NULL and record `ended = frame->ended`.  `matched` is a
history flag: whether the captured latest frame was fully processed. -/
def drain_frames (env : callback_env) (latest_ptr : Nat) :
    List frame_object → Option Nat → Bool → Bool → drain_out
  | [], latest_field, ended, matched =>
    ⟨[], latest_field, ended, matched, [], false⟩
  | frame :: rest, latest_field, ended, matched =>
    let draw_now := frame.fid == latest_ptr
    let (evs, failed) := run_commands env draw_now frame.commands
    if failed then
      ⟨rest, latest_field, ended, matched, evs, true⟩
    else if draw_now then
      let latest_field' :=
        if latest_field == some latest_ptr then none else latest_field
      let out := drain_frames env latest_ptr rest latest_field' frame.ended true
      { out with events := evs ++ out.events }
    else
      let out := drain_frames env latest_ptr rest latest_field ended matched
      { out with events := evs ++ [event.flush] ++ out.events }

/-- `frames_draw_latest`: acquire-load `latest_frame`; if NULL return
`FRAMES_STATUS_NO_FRAMES` without touching the GPU; otherwise drain the
FIFO as in `drain_frames`; afterwards, if the local `ended` flag was set
(the captured latest frame was reached and had `ended == true`), present
via `SDL_GL_SwapWindow` and return `FRAMES_STATUS_SUCCESS`, else return
`FRAMES_STATUS_NO_END`.  Returns the status, the post-state, and the
events of the call in order. -/
def frames_draw_latest (env : callback_env) (frames : frames_object) :
    frames_status_type × frames_object × List event :=
  match frames.latest_frame with
  | none => (FRAMES_STATUS_NO_FRAMES, frames, [])
  | some latest_ptr =>
    let out := drain_frames env latest_ptr frames.frame_queues
                 frames.latest_frame false false
    let frames' :=
      { frames with
          frame_queues := out.fifo
          latest_frame := out.latest
          rendered_fids :=
            if out.matched then latest_ptr :: frames.rendered_fids
            else frames.rendered_fids }
    if out.failed then
      (FRAMES_STATUS_ERROR, frames', out.events)
    else if out.ended then
      (FRAMES_STATUS_SUCCESS, frames', out.events ++ [event.present])
    else
      (FRAMES_STATUS_NO_END, frames', out.events)

/-- The frame-drain loop of `frames_destroy`: like `drain_frames` but with
no draw and no `latest_frame` involvement; `glFlush` after every frame.
On an `update` failure the function returns `false` immediately. -/
def destroy_frames (env : callback_env) :
    List frame_object → List event × Bool
  | [] => ([], false)
  | frame :: rest =>
    let (evs, failed) := run_commands env false frame.commands
    if failed then (evs, true)
    else
      let (evs', failed') := destroy_frames env rest
      (evs ++ [event.flush] ++ evs', failed')

/-- `frames_destroy`: drain every remaining frame running only
`update`/`destroy` (never `draw`, never a present), then destroy the
conqueue and free the struct.  Returns `false` if an `update` callback
failed, and the events of the call in order. -/
def frames_destroy (env : callback_env) (frames : frames_object) :
    Bool × List event :=
  let (evs, failed) := destroy_frames env frames.frame_queues
  (!failed, evs)

/-! ## Helper definitions and lemmas about the pipeline -/

/-- An environment in which no callback ever fails. -/
def env_all_ok (env : callback_env) : Prop :=
  ∀ n, env.update_ok n = true ∧ env.draw_ok n = true

lemma all_ok_env_all_ok : env_all_ok all_ok_env := fun _ => ⟨rfl, rfl⟩

/-- The events one command emits when fully processed: `update` if that
callback is non-NULL, `draw` if `draw_now` and non-NULL, `destroy` if
non-NULL, in that order. -/
def command_events (draw_now : Bool) (command : command_object) : List event :=
  (if command.funcs.has_update then [event.update command.state] else []) ++
  (if draw_now && command.funcs.has_draw then [event.draw command.state] else []) ++
  (if command.funcs.has_destroy then [event.destroy command.state] else [])

lemma run_commands_all_ok {env : callback_env} (henv : env_all_ok env)
    (draw_now : Bool) (cmds : List command_object) :
    run_commands env draw_now cmds =
      ((cmds.map (command_events draw_now)).flatten, false) := by
  induction cmds with
  | nil => simp [run_commands]
  | cons c rest ih =>
    have hu := (henv c.state).1
    have hd := (henv c.state).2
    simp [run_commands, hu, hd, ih, command_events, List.append_assoc]

/-- The events one frame contributes to a `frames_draw_latest` drain:
its commands' events, then a `glFlush` unless it is the captured latest. -/
def frame_events (latest_ptr : Nat) (frame : frame_object) : List event :=
  (frame.commands.map (command_events (frame.fid == latest_ptr))).flatten ++
  (if frame.fid == latest_ptr then [] else [event.flush])

lemma drain_frames_all_ok {env : callback_env} (henv : env_all_ok env)
    (L : Nat) (fifo : List frame_object) :
    ∀ (lf : Option Nat) (e m : Bool),
      (drain_frames env L fifo lf e m).fifo = [] ∧
      (drain_frames env L fifo lf e m).events = (fifo.map (frame_events L)).flatten ∧
      (drain_frames env L fifo lf e m).failed = false := by
  induction fifo with
  | nil => intro lf e m; simp [drain_frames]
  | cons frame rest ih =>
    intro lf e m
    by_cases hfid : frame.fid = L
    · simp [drain_frames, run_commands_all_ok henv, hfid, ih, frame_events]
    · simp [drain_frames, run_commands_all_ok henv, hfid, ih, frame_events]

/-- If no frame in the FIFO is the captured latest, the drain leaves the
`latest_frame` field, the `ended` flag and the match flag untouched. -/
lemma drain_frames_no_match_eq {env : callback_env} (henv : env_all_ok env)
    (L : Nat) (fifo : List frame_object) (hno : ∀ f ∈ fifo, f.fid ≠ L) :
    ∀ (lf : Option Nat) (e m : Bool),
      drain_frames env L fifo lf e m =
        ⟨[], lf, e, m, (fifo.map (frame_events L)).flatten, false⟩ := by
  induction fifo with
  | nil => intro lf e m; simp [drain_frames]
  | cons frame rest ih =>
    intro lf e m
    have hfid : frame.fid ≠ L := hno frame (by simp)
    have hrest : ∀ f ∈ rest, f.fid ≠ L := fun f hf => hno f (by simp [hf])
    simp [drain_frames, run_commands_all_ok henv, hfid, ih hrest, frame_events]

/-- If the captured latest is the last frame of the FIFO (and no earlier
frame has its identity), a fully successful drain empties the FIFO, clears
the `latest_frame` field by the CAS, reports that frame's `ended` flag, and
emits every frame's events in FIFO order. -/
lemma drain_frames_last_match_eq {env : callback_env} (henv : env_all_ok env)
    (L : Nat) (pre : List frame_object) (lastf : frame_object)
    (hno : ∀ f ∈ pre, f.fid ≠ L) (hlast : lastf.fid = L) :
    ∀ (e m : Bool),
      drain_frames env L (pre ++ [lastf]) (some L) e m =
        ⟨[], none, lastf.ended, true,
         ((pre ++ [lastf]).map (frame_events L)).flatten, false⟩ := by
  induction pre with
  | nil =>
    intro e m
    simp [drain_frames, run_commands_all_ok henv, hlast, frame_events]
  | cons frame rest ih =>
    intro e m
    have hfid : frame.fid ≠ L := hno frame (by simp)
    have hrest : ∀ f ∈ rest, f.fid ≠ L := fun f hf => hno f (by simp [hf])
    simp [drain_frames, run_commands_all_ok henv, hfid, ih hrest, frame_events,
      List.append_assoc]

/-! ## Producer-side setup: sealing a sequence of frames -/

def mk_command (c : command_funcs × Nat) : command_object := ⟨c.1, c.2⟩

/-- Producer tick body between `frames_start` and `frames_end`: enqueue
the given commands one by one with `frames_enqueue_command`. -/
def enqueue_commands (frames : frames_object) :
    List (command_funcs × Nat) → frames_object
  | [] => frames
  | c :: rest =>
    match frames_enqueue_command frames c.1 c.2 with
    | none => frames
    | some frames' => enqueue_commands frames' rest

/-- One producer tick: `frames_start`, the `frames_enqueue_command` calls,
`frames_end`. -/
def produce_frame (frames : frames_object)
    (cmds : List (command_funcs × Nat)) : frames_object :=
  let s1 := (frames_start frames).2
  let s2 := enqueue_commands s1 cmds
  (frames_end s2).getD s2

/-- Seal a sequence of frames, one producer tick per list element. -/
def produce (frames : frames_object) :
    List (List (command_funcs × Nat)) → frames_object
  | [] => frames
  | cmds :: rest => produce (produce_frame frames cmds) rest

lemma enqueue_commands_spec (cmds : List (command_funcs × Nat)) :
    ∀ (frames : frames_object) (frame : frame_object),
      frames.next_latest_frame = some frame →
      enqueue_commands frames cmds =
        { frames with
            next_latest_frame :=
              some { frame with
                      commands := frame.commands ++ cmds.map mk_command } } := by
  induction cmds with
  | nil => intro frames frame h; simp [enqueue_commands, ← h]
  | cons c rest ih =>
    intro frames frame h
    have step : frames_enqueue_command frames c.1 c.2 =
        some { frames with
                next_latest_frame :=
                  some { frame with commands := frame.commands ++ [⟨c.1, c.2⟩] } } := by
      simp [frames_enqueue_command, h]
    simp only [enqueue_commands, step]
    rw [ih _ { frame with commands := frame.commands ++ [⟨c.1, c.2⟩] } rfl]
    simp [mk_command, List.append_assoc]

lemma produce_frame_spec (frames : frames_object)
    (cmds : List (command_funcs × Nat)) :
    produce_frame frames cmds =
      { frames with
          frame_queues :=
            frames.frame_queues ++ [⟨cmds.map mk_command, true, frames.next_fid⟩]
          next_latest_frame := none
          latest_frame := some frames.next_fid
          next_fid := frames.next_fid + 1 } := by
  have h1 : (frames_start frames).2.next_latest_frame =
      some ⟨[], false, frames.next_fid⟩ := rfl
  show (frames_end (enqueue_commands (frames_start frames).2 cmds)).getD
      (enqueue_commands (frames_start frames).2 cmds) = _
  rw [enqueue_commands_spec cmds _ _ h1]
  simp [frames_end, frames_start]

/-- The frames built by sealing `cmdss` starting from fresh id `fid0`. -/
def mk_frames (fid0 : Nat) : List (List (command_funcs × Nat)) → List frame_object
  | [] => []
  | cmds :: rest => ⟨cmds.map mk_command, true, fid0⟩ :: mk_frames (fid0 + 1) rest

lemma produce_spec (cmdss : List (List (command_funcs × Nat)))
    (hne : cmdss ≠ []) :
    ∀ frames : frames_object,
      produce frames cmdss =
        { frames with
            frame_queues := frames.frame_queues ++ mk_frames frames.next_fid cmdss
            next_latest_frame := none
            latest_frame := some (frames.next_fid + cmdss.length - 1)
            next_fid := frames.next_fid + cmdss.length } := by
  induction cmdss with
  | nil => exact absurd rfl hne
  | cons cmds rest ih =>
    intro frames
    by_cases hr : rest = []
    · subst hr
      simp [produce, produce_frame_spec, mk_frames]
    · simp only [produce]
      rw [produce_frame_spec, ih hr]
      simp [mk_frames, List.append_assoc]
      omega

lemma mk_frames_fid_lt (cmdss : List (List (command_funcs × Nat))) :
    ∀ (fid0 : Nat) (f : frame_object), f ∈ mk_frames fid0 cmdss →
      fid0 ≤ f.fid ∧ f.fid < fid0 + cmdss.length := by
  induction cmdss with
  | nil => intro fid0 f hf; simp [mk_frames] at hf
  | cons cmds rest ih =>
    intro fid0 f hf
    simp only [mk_frames, List.mem_cons] at hf
    rcases hf with hf | hf
    · subst hf; simp
    · have := ih (fid0 + 1) f hf
      simp only [List.length_cons]
      omega

lemma mk_frames_append (cmdss : List (List (command_funcs × Nat)))
    (last : List (command_funcs × Nat)) :
    ∀ fid0 : Nat,
      mk_frames fid0 (cmdss ++ [last]) =
        mk_frames fid0 cmdss ++
          [⟨last.map mk_command, true, fid0 + cmdss.length⟩] := by
  induction cmdss with
  | nil => intro fid0; simp [mk_frames]
  | cons cmds rest ih =>
    intro fid0
    simp only [List.cons_append, mk_frames, List.append_eq, ih (fid0 + 1),
      List.length_cons]
    have harith : fid0 + 1 + rest.length = fid0 + (rest.length + 1) := by omega
    rw [harith]

/-- The trace the spec expects for one drained frame: each command's
`update`, then `draw` when this frame is the latest, then `destroy`; a
`glFlush` after a non-latest frame. -/
def expected_frame_trace (draw_now : Bool)
    (cmds : List (command_funcs × Nat)) : List event :=
  (cmds.map fun c => command_events draw_now (mk_command c)).flatten ++
  (if draw_now then [] else [event.flush])

/-- The trace the spec expects for a full drain of sealed frames: the
frames in FIFO order, only the last one drawn. -/
def expected_drain_trace : List (List (command_funcs × Nat)) → List event
  | [] => []
  | cmds :: rest =>
    expected_frame_trace rest.isEmpty cmds ++ expected_drain_trace rest

lemma mk_frames_trace (cmdss : List (List (command_funcs × Nat)))
    (hne : cmdss ≠ []) :
    ∀ fid0 : Nat,
      ((mk_frames fid0 cmdss).map
          (frame_events (fid0 + cmdss.length - 1))).flatten =
        expected_drain_trace cmdss := by
  induction cmdss with
  | nil => exact absurd rfl hne
  | cons cmds rest ih =>
    intro fid0
    by_cases hr : rest = []
    · subst hr
      simp [mk_frames, frame_events, expected_drain_trace, expected_frame_trace,
        List.isEmpty, Function.comp_def]
    · have hlen : rest.length ≠ 0 := fun h => hr (List.length_eq_zero.mp h)
      have hfid : (fid0 == fid0 + (cmds :: rest).length - 1) = false := by
        simp only [List.length_cons]
        simp only [beq_eq_false_iff_ne, ne_eq]
        omega
      have harith : fid0 + (cmds :: rest).length - 1 =
          (fid0 + 1) + rest.length - 1 := by
        simp only [List.length_cons]; omega
      simp only [mk_frames, List.map_cons, List.flatten_cons, frame_events, hfid,
        expected_drain_trace]
      rw [harith, ih hr (fid0 + 1)]
      have hie : rest.isEmpty = false := by
        cases rest with
        | nil => exact absurd rfl hr
        | cons a b => rfl
      simp [expected_frame_trace, hie, frame_events, hfid, mk_command,
        Function.comp_def]

/-- A fully successful `frames_draw_latest` on a state whose captured
latest frame is the last frame of the FIFO, is sealed, and is the only
frame with that identity: the whole FIFO is drained, the `latest_frame`
field is cleared, the frames' events are emitted in FIFO order, and one
present happens. -/
lemma frames_draw_latest_all_ok_success {env : callback_env}
    (henv : env_all_ok env) (s : frames_object) (L : Nat)
    (pre : List frame_object) (lastf : frame_object)
    (hl : s.latest_frame = some L)
    (hq : s.frame_queues = pre ++ [lastf])
    (hno : ∀ f ∈ pre, f.fid ≠ L)
    (hlast : lastf.fid = L) (hend : lastf.ended = true) :
    frames_draw_latest env s =
      (FRAMES_STATUS_SUCCESS,
       { s with frame_queues := [], latest_frame := none,
                rendered_fids := L :: s.rendered_fids },
       ((pre ++ [lastf]).map (frame_events L)).flatten ++ [event.present]) := by
  simp only [frames_draw_latest, hl, hq]
  rw [drain_frames_last_match_eq henv L pre lastf hno hlast]
  simp [hend]

/-! ## Per-command views of a trace -/

/-- Does this event name the command with state pointer `p`? -/
def touches (p : Nat) : event → Bool
  | event.update q => p == q
  | event.draw q => p == q
  | event.destroy q => p == q
  | event.flush => false
  | event.present => false

/-- The subtrace of events concerning the command with state pointer `p`. -/
def evs_of (p : Nat) (l : List event) : List event := l.filter (touches p)

/-- All command state pointers of the frames of a FIFO, in order. -/
def fifo_states (fifo : List frame_object) : List Nat :=
  (fifo.map fun f => f.commands.map command_object.state).flatten

lemma evs_of_append (p : Nat) (a b : List event) :
    evs_of p (a ++ b) = evs_of p a ++ evs_of p b := by
  simp [evs_of, List.filter_append]

lemma evs_of_flush_cons (p : Nat) (l : List event) :
    evs_of p (event.flush :: l) = evs_of p l := by
  simp [evs_of, List.filter, touches]

lemma evs_of_present_cons (p : Nat) (l : List event) :
    evs_of p (event.present :: l) = evs_of p l := by
  simp [evs_of, List.filter, touches]

lemma evs_of_command_events (p : Nat) (dn : Bool) (c : command_object) :
    evs_of p (command_events dn c) =
      if c.state = p then command_events dn c else [] := by
  by_cases hp : c.state = p
  · subst hp
    simp [command_events, evs_of, List.filter_append,
      apply_ite (List.filter (touches c.state)), touches, List.filter]
  · have hp' : (p == c.state) = false := by
      simp only [beq_eq_false_iff_ne, ne_eq]
      exact fun h => hp h.symm
    simp [command_events, evs_of, List.filter_append,
      apply_ite (List.filter (touches p)), touches, List.filter, hp', hp]

lemma evs_of_commands_not_mem (p : Nat) (dn : Bool)
    (cmds : List command_object) (h : p ∉ cmds.map command_object.state) :
    evs_of p ((cmds.map (command_events dn)).flatten) = [] := by
  induction cmds with
  | nil => simp [evs_of]
  | cons c rest ih =>
    simp only [List.map_cons, List.mem_cons, not_or] at h
    simp only [List.map_cons, List.flatten_cons, evs_of_append]
    rw [evs_of_command_events]
    have : ¬ c.state = p := fun hc => h.1 hc.symm
    simp [this, ih h.2]

lemma evs_of_commands_mem (p : Nat) (dn : Bool) (c : command_object) :
    ∀ cmds : List command_object, c ∈ cmds → c.state = p →
      (cmds.map command_object.state).Nodup →
      evs_of p ((cmds.map (command_events dn)).flatten) = command_events dn c := by
  intro cmds
  induction cmds with
  | nil => intro h; simp at h
  | cons c0 rest ih =>
    intro hc hp hnd
    simp only [List.map_cons, List.nodup_cons] at hnd
    simp only [List.map_cons, List.flatten_cons, evs_of_append]
    rcases List.mem_cons.mp hc with hc0 | hcr
    · subst hc0
      rw [evs_of_command_events]
      have hrest : p ∉ rest.map command_object.state := hp ▸ hnd.1
      simp [hp, evs_of_commands_not_mem p dn rest hrest]
    · have hne : ¬ c0.state = p := by
        intro h0
        apply hnd.1
        rw [h0]
        exact List.mem_map.mpr ⟨c, hcr, hp⟩
      rw [evs_of_command_events]
      simp [hne, ih hcr hp hnd.2]

lemma evs_of_frame_events (p L : Nat) (g : frame_object) :
    evs_of p (frame_events L g) =
      evs_of p ((g.commands.map (command_events (g.fid == L))).flatten) := by
  simp [frame_events, evs_of_append, evs_of,
    apply_ite (List.filter (touches p)), touches, List.filter]

lemma evs_of_fifo_not_mem (p L : Nat) :
    ∀ fifo : List frame_object, p ∉ fifo_states fifo →
      evs_of p ((fifo.map (frame_events L)).flatten) = [] := by
  intro fifo
  induction fifo with
  | nil => intro h; simp [evs_of]
  | cons g rest ih =>
    intro h
    simp only [fifo_states, List.map_cons, List.flatten_cons, List.mem_append,
      not_or] at h
    simp only [List.map_cons, List.flatten_cons, evs_of_append,
      evs_of_frame_events]
    rw [evs_of_commands_not_mem p _ g.commands h.1]
    have : p ∉ fifo_states rest := h.2
    simp [ih this]

lemma evs_of_fifo_mem (p L : Nat) (f : frame_object) (c : command_object)
    (hc : c ∈ f.commands) (hp : c.state = p) :
    ∀ fifo : List frame_object, f ∈ fifo → (fifo_states fifo).Nodup →
      evs_of p ((fifo.map (frame_events L)).flatten) =
        command_events (f.fid == L) c := by
  intro fifo
  induction fifo with
  | nil => intro h; simp at h
  | cons g rest ih =>
    intro hf hnd
    simp only [fifo_states, List.map_cons, List.flatten_cons] at hnd
    rw [List.nodup_append] at hnd
    simp only [List.map_cons, List.flatten_cons, evs_of_append,
      evs_of_frame_events]
    rcases List.mem_cons.mp hf with hg | hr
    · subst hg
      rw [evs_of_commands_mem p _ c f.commands hc hp hnd.1]
      have hmem : p ∈ f.commands.map command_object.state :=
        List.mem_map.mpr ⟨c, hc, hp⟩
      have hnot : p ∉ fifo_states rest := fun hin => hnd.2.2 hmem hin
      simp [evs_of_fifo_not_mem p L rest hnot]
    · have hmem : p ∈ fifo_states rest := by
        simp only [fifo_states]
        exact List.mem_flatten.mpr
          ⟨f.commands.map command_object.state,
           List.mem_map.mpr ⟨f, hr, rfl⟩, List.mem_map.mpr ⟨c, hc, hp⟩⟩
      have hnot : p ∉ g.commands.map command_object.state :=
        fun hin => hnd.2.2 hin hmem
      rw [evs_of_commands_not_mem p _ g.commands hnot]
      simp [ih hr hnd.2.1]

lemma destroy_frames_all_ok {env : callback_env} (henv : env_all_ok env) :
    ∀ fifo : List frame_object,
      destroy_frames env fifo =
        ((fifo.map fun f =>
            (f.commands.map (command_events false)).flatten ++ [event.flush]).flatten,
         false) := by
  intro fifo
  induction fifo with
  | nil => simp [destroy_frames]
  | cons g rest ih =>
    simp [destroy_frames, run_commands_all_ok henv, ih, List.append_assoc]

lemma evs_of_destroy_trace_not_mem (p : Nat) :
    ∀ fifo : List frame_object, p ∉ fifo_states fifo →
      evs_of p ((fifo.map fun f =>
          (f.commands.map (command_events false)).flatten ++
            [event.flush]).flatten) = [] := by
  intro fifo
  induction fifo with
  | nil => intro h; simp [evs_of]
  | cons g rest ih =>
    intro h
    simp only [fifo_states, List.map_cons, List.flatten_cons, List.mem_append,
      not_or] at h
    have hflush : evs_of p [event.flush] = [] := by
      simp [evs_of, touches, List.filter]
    have hrest : p ∉ fifo_states rest := h.2
    simp only [List.map_cons, List.flatten_cons, evs_of_append]
    rw [evs_of_commands_not_mem p _ g.commands h.1, hflush, ih hrest]
    simp

lemma evs_of_destroy_trace_mem (p : Nat) (f : frame_object)
    (c : command_object) (hc : c ∈ f.commands) (hp : c.state = p) :
    ∀ fifo : List frame_object, f ∈ fifo → (fifo_states fifo).Nodup →
      evs_of p ((fifo.map fun g =>
          (g.commands.map (command_events false)).flatten ++
            [event.flush]).flatten) = command_events false c := by
  intro fifo
  induction fifo with
  | nil => intro h; simp at h
  | cons g rest ih =>
    intro hf hnd
    simp only [fifo_states, List.map_cons, List.flatten_cons] at hnd
    rw [List.nodup_append] at hnd
    simp only [List.map_cons, List.flatten_cons, evs_of_append]
    have hflush : evs_of p [event.flush] = [] := by
      simp [evs_of, touches, List.filter]
    rcases List.mem_cons.mp hf with hg | hr
    · subst hg
      rw [evs_of_commands_mem p _ c f.commands hc hp hnd.1]
      have hmem : p ∈ f.commands.map command_object.state :=
        List.mem_map.mpr ⟨c, hc, hp⟩
      have hnot : p ∉ fifo_states rest := fun hin => hnd.2.2 hmem hin
      simp [evs_of_destroy_trace_not_mem p rest hnot, hflush]
    · have hmem : p ∈ fifo_states rest := by
        simp only [fifo_states]
        exact List.mem_flatten.mpr
          ⟨f.commands.map command_object.state,
           List.mem_map.mpr ⟨f, hr, rfl⟩, List.mem_map.mpr ⟨c, hc, hp⟩⟩
      have hnot : p ∉ g.commands.map command_object.state :=
        fun hin => hnd.2.2 hin hmem
      rw [evs_of_commands_not_mem p _ g.commands hnot]
      simp [ih hr hnd.2.1, hflush]

/-- The per-command view of a fully successful `frames_draw_latest` equals
the per-command view of the frames' drain trace (the final present touches
no command). -/
lemma evs_of_draw_latest_all_ok {env : callback_env} (henv : env_all_ok env)
    (s : frames_object) (L : Nat) (hl : s.latest_frame = some L) (p : Nat) :
    evs_of p (frames_draw_latest env s).2.2 =
      evs_of p ((s.frame_queues.map (frame_events L)).flatten) := by
  obtain ⟨h1, h2, h3⟩ :=
    drain_frames_all_ok henv L s.frame_queues (some L) false false
  have hpres : evs_of p [event.present] = [] := by
    simp [evs_of, touches, List.filter]
  simp only [frames_draw_latest, hl, h3]
  by_cases he : (drain_frames env L s.frame_queues (some L) false false).ended = true
  · simp [he, evs_of_append, h2, hpres]
  · simp [he, h2]

/-- Per-command view of an arbitrary `run_commands` pass: a command whose
state pointer is not among the processed commands' contributes nothing,
whatever the callback results. -/
lemma evs_of_run_commands_not_mem (env : callback_env) (p : Nat) (dn : Bool) :
    ∀ cmds : List command_object, p ∉ cmds.map command_object.state →
      evs_of p (run_commands env dn cmds).1 = [] := by
  intro cmds
  induction cmds with
  | nil => intro h; simp [run_commands, evs_of]
  | cons c rest ih =>
    intro h
    simp only [List.map_cons, List.mem_cons, not_or] at h
    have hps : (p == c.state) = false := by
      simp only [beq_eq_false_iff_ne, ne_eq]
      exact h.1
    by_cases h1 : (c.funcs.has_update && !env.update_ok c.state) = true
    · simp [run_commands, h1, evs_of, List.filter, touches, hps]
    · by_cases h2 : (dn && c.funcs.has_draw && !env.draw_ok c.state) = true
      · simp [run_commands, h1, h2, evs_of, List.filter, List.filter_append,
          touches, hps, apply_ite (List.filter (touches p))]
      · have ihr := ih h.2
        simp only [run_commands, h1, h2]
        simp [evs_of, List.filter_append, List.filter, touches, hps,
          apply_ite (List.filter (touches p)), evs_of] at ihr ⊢
        exact ihr

lemma evs_of_drain_not_mem (env : callback_env) (L p : Nat) :
    ∀ (fifo : List frame_object) (lf : Option Nat) (e m : Bool),
      p ∉ fifo_states fifo →
      evs_of p (drain_frames env L fifo lf e m).events = [] := by
  intro fifo
  induction fifo with
  | nil => intro lf e m h; simp [drain_frames, evs_of]
  | cons g rest ih =>
    intro lf e m h
    simp only [fifo_states, List.map_cons, List.flatten_cons, List.mem_append,
      not_or] at h
    have hrest : p ∉ fifo_states rest := h.2
    have hflush : evs_of p [event.flush] = [] := by
      simp [evs_of, touches, List.filter]
    cases hdn : (g.fid == L) with
    | true =>
      have hg := evs_of_run_commands_not_mem env p true g.commands h.1
      by_cases hf : (run_commands env true g.commands).2 = true
      · simp [drain_frames, hdn, hf, hg]
      · simp [drain_frames, hdn, hf, evs_of_append, hg, hflush,
          evs_of_flush_cons, ih _ _ _ hrest]
    | false =>
      have hg := evs_of_run_commands_not_mem env p false g.commands h.1
      by_cases hf : (run_commands env false g.commands).2 = true
      · simp [drain_frames, hdn, hf, hg]
      · simp [drain_frames, hdn, hf, evs_of_append, hg, hflush,
          evs_of_flush_cons, ih _ _ _ hrest]

/-- A `frames_draw_latest` call emits no event for a command whose state
pointer does not occur in the FIFO, whatever the callback results. -/
lemma evs_of_draw_latest_not_mem (env : callback_env) (p : Nat)
    (s : frames_object) (h : p ∉ fifo_states s.frame_queues) :
    evs_of p (frames_draw_latest env s).2.2 = [] := by
  cases hl : s.latest_frame with
  | none => simp [frames_draw_latest, hl, evs_of]
  | some L =>
    have hd := evs_of_drain_not_mem env L p s.frame_queues (some L) false false h
    have hpres : evs_of p [event.present] = [] := by
      simp [evs_of, touches, List.filter]
    simp only [frames_draw_latest, hl]
    by_cases hf :
        (drain_frames env L s.frame_queues (some L) false false).failed = true
    · simp [hf, hd]
    · by_cases he :
          (drain_frames env L s.frame_queues (some L) false false).ended = true
      · simp [hf, he, evs_of_append, hd, hpres]
      · simp [hf, he, hd]

/-- A `frames_destroy` call emits no event for a command whose state
pointer does not occur in the FIFO, whatever the callback results. -/
lemma evs_of_destroy_frames_not_mem (env : callback_env) (p : Nat) :
    ∀ fifo : List frame_object, p ∉ fifo_states fifo →
      evs_of p (destroy_frames env fifo).1 = [] := by
  intro fifo
  induction fifo with
  | nil => intro h; simp [destroy_frames, evs_of]
  | cons g rest ih =>
    intro h
    simp only [fifo_states, List.map_cons, List.flatten_cons, List.mem_append,
      not_or] at h
    have hg := evs_of_run_commands_not_mem env p false g.commands h.1
    have hrest : p ∉ fifo_states rest := h.2
    have hflush : evs_of p [event.flush] = [] := by
      simp [evs_of, touches, List.filter]
    by_cases hf : (run_commands env false g.commands).2 = true
    · simp [destroy_frames, hf, hg]
    · simp [destroy_frames, hf, evs_of_append, hg, hflush, evs_of_flush_cons,
        ih hrest]

/-- When the drain loop aborts on a callback failure, the FIFO splits as
`pre ++ fail :: post`: the frames of `pre` were fully processed, `fail` is
the frame whose command failed (already dequeued, not re-inserted), the
result FIFO is exactly `post`, and — provided no frame of `pre` was the
captured latest — the `latest_frame` field is untouched. -/
lemma drain_frames_failed_decomp (env : callback_env) (L : Nat) :
    ∀ (fifo : List frame_object) (lf : Option Nat) (e m : Bool),
      (drain_frames env L fifo lf e m).failed = true →
      ∃ pre fail post, fifo = pre ++ fail :: post ∧
        (drain_frames env L fifo lf e m).fifo = post ∧
        (run_commands env (fail.fid == L) fail.commands).2 = true ∧
        ((∀ f ∈ pre, f.fid ≠ L) →
          (drain_frames env L fifo lf e m).latest = lf) := by
  intro fifo
  induction fifo with
  | nil => intro lf e m h; simp [drain_frames] at h
  | cons g rest ih =>
    intro lf e m h
    cases hdn : (g.fid == L) with
    | true =>
      have hgL : g.fid = L := by simpa using hdn
      by_cases hf : (run_commands env true g.commands).2 = true
      · refine ⟨[], g, rest, rfl, ?_, ?_, ?_⟩
        · simp [drain_frames, hdn, hf]
        · rw [hdn]; exact hf
        · intro _; simp [drain_frames, hdn, hf]
      · have hfail :
            (drain_frames env L rest
              (if lf == some L then none else lf) g.ended true).failed = true := by
          have hres : (drain_frames env L (g :: rest) lf e m).failed =
              (drain_frames env L rest
                (if lf == some L then none else lf) g.ended true).failed := by
            simp [drain_frames, hdn, hf]
          rw [← hres]; exact h
        obtain ⟨pre', fail, post, hsplit, hfifo, hrc, _⟩ :=
          ih (if lf == some L then none else lf) g.ended true hfail
        refine ⟨g :: pre', fail, post, by simp [hsplit], ?_, hrc, ?_⟩
        · have : (drain_frames env L (g :: rest) lf e m).fifo =
              (drain_frames env L rest
                (if lf == some L then none else lf) g.ended true).fifo := by
            simp [drain_frames, hdn, hf]
          rw [this]; exact hfifo
        · intro hall
          exact absurd hgL (hall g (List.mem_cons_self g pre'))
    | false =>
      by_cases hf : (run_commands env false g.commands).2 = true
      · refine ⟨[], g, rest, rfl, ?_, ?_, ?_⟩
        · simp [drain_frames, hdn, hf]
        · rw [hdn]; exact hf
        · intro _; simp [drain_frames, hdn, hf]
      · have hfail : (drain_frames env L rest lf e m).failed = true := by
          have hres : (drain_frames env L (g :: rest) lf e m).failed =
              (drain_frames env L rest lf e m).failed := by
            simp [drain_frames, hdn, hf]
          rw [← hres]; exact h
        obtain ⟨pre', fail, post, hsplit, hfifo, hrc, hlat⟩ :=
          ih lf e m hfail
        refine ⟨g :: pre', fail, post, by simp [hsplit], ?_, hrc, ?_⟩
        · have : (drain_frames env L (g :: rest) lf e m).fifo =
              (drain_frames env L rest lf e m).fifo := by
            simp [drain_frames, hdn, hf]
          rw [this]; exact hfifo
        · intro hall
          have : (drain_frames env L (g :: rest) lf e m).latest =
              (drain_frames env L rest lf e m).latest := by
            simp [drain_frames, hdn, hf]
          rw [this]
          exact hlat fun f hfmem => hall f (List.mem_cons_of_mem g hfmem)

lemma fifo_states_append (a b : List frame_object) :
    fifo_states (a ++ b) = fifo_states a ++ fifo_states b := by
  simp [fifo_states]

lemma fifo_states_cons (g : frame_object) (rest : List frame_object) :
    fifo_states (g :: rest) =
      g.commands.map command_object.state ++ fifo_states rest := by
  simp [fifo_states]

/-- A `frames_draw_latest` on a state whose `latest_frame` is non-null
never returns the no-new-frame status: the call re-enters the drain loop. -/
lemma draw_latest_status_ne_no_frames (env : callback_env)
    (s : frames_object) (L : Nat) (hl : s.latest_frame = some L) :
    (frames_draw_latest env s).1 ≠ FRAMES_STATUS_NO_FRAMES := by
  simp only [frames_draw_latest, hl]
  by_cases hf :
      (drain_frames env L s.frame_queues (some L) false false).failed = true
  · simp [hf]
  · by_cases he :
        (drain_frames env L s.frame_queues (some L) false false).ended = true
    · simp [hf, he]
    · simp [hf, he]

/-! ## Claim theorems -/

/-- C4: for every sequence of non-null values enqueued into a conqueue by
`conqueue_enqueue`, successive `conqueue_dequeue` calls return exactly
those values in the same (FIFO) order, and `conqueue_dequeue` returns NULL
exactly when the queue is empty, leaving an empty queue unchanged
(non-blocking poll). -/
theorem C4_conqueue_fifo_order {V : Type} (queue : conqueue_object V)
    (values : List V) :
    conqueue_drain (conqueue_enqueue_list queue values) = queue.chain ++ values ∧
    ((conqueue_dequeue queue).1 = none ↔ queue.chain = []) ∧
    (queue.chain = [] → conqueue_dequeue queue = (none, queue)) := by
  refine ⟨?_, ?_, ?_⟩
  · rw [conqueue_drain_eq_chain, conqueue_enqueue_list_chain]
  · cases queue with
    | mk chain => cases chain <;> simp [conqueue_dequeue]
  · intro h
    cases queue with
    | mk chain =>
      simp only at h
      subst h
      simp [conqueue_dequeue]

/-- Witness for C4 at a concrete queue and value sequence. -/
theorem C4_conqueue_fifo_order_witness :
    conqueue_drain (conqueue_enqueue_list (conqueue_create (V := Nat)) [3, 1, 2]) =
        (conqueue_create (V := Nat)).chain ++ [3, 1, 2] ∧
    ((conqueue_dequeue (conqueue_create (V := Nat))).1 = none ↔
        (conqueue_create (V := Nat)).chain = []) ∧
    ((conqueue_create (V := Nat)).chain = [] →
        conqueue_dequeue (conqueue_create (V := Nat)) =
          (none, conqueue_create (V := Nat))) :=
  C4_conqueue_fifo_order conqueue_create [3, 1, 2]

/-- C7 (evaluation at the failing input): `conqueue_enqueue` performs no
producer latch and no thread-identity assertion — a first enqueue by
thread 40 followed by an enqueue by a different thread 41 leaves every
assertion passing and the debug state untouched — whereas the consumer
side does latch: the first `conqueue_dequeue` (thread 40) is latched and a
later `conqueue_dequeue` by thread 41 fails the assertion.  This
contradicts both the claim and the header documentation of
`src/util/conqueue.h` ("the first thread to enqueue becomes the
valid-producer"): the implementation checks only the consumer. -/
theorem C7_enqueue_has_no_producer_latch :
    (conqueue_enqueue_dbg 40 conqueue_dbg_create).1 = true ∧
    (conqueue_enqueue_dbg 41 (conqueue_enqueue_dbg 40 conqueue_dbg_create).2).1
      = true ∧
    (conqueue_enqueue_dbg 41 (conqueue_enqueue_dbg 40 conqueue_dbg_create).2).2
      = conqueue_dbg_create ∧
    (conqueue_dequeue_dbg 40 conqueue_dbg_create).1 = true ∧
    ((conqueue_dequeue_dbg 40 conqueue_dbg_create).2).consumer = 40 ∧
    (conqueue_dequeue_dbg 41 (conqueue_dequeue_dbg 40 conqueue_dbg_create).2).1
      = false := by
  decide

/-- C3: for every N ≥ 1 (here N = `init.length + 1` frames, sealed by
`produce` via `frames_start` / `frames_enqueue_command` / `frames_end`
before any draw), one `frames_draw_latest` call processes the N frames in
FIFO order — the event trace equals `expected_drain_trace`, which runs
every command's `update` exactly once in every frame, runs `draw` only for
the commands of the last-sealed frame, runs every command's `destroy`
exactly once, with a `glFlush` after each non-latest frame — performs one
present, and leaves `latest_frame` null (and the FIFO empty). -/
theorem C3_no_lost_updates (env : callback_env) (henv : env_all_ok env)
    (init : List (List (command_funcs × Nat)))
    (last : List (command_funcs × Nat)) :
    frames_draw_latest env (produce frames_create (init ++ [last])) =
      (FRAMES_STATUS_SUCCESS,
       ⟨[], none, none, init.length + 1, [init.length]⟩,
       expected_drain_trace (init ++ [last]) ++ [event.present]) := by
  have hne : init ++ [last] ≠ [] := by simp
  have hp : produce frames_create (init ++ [last]) =
      ⟨mk_frames 0 (init ++ [last]), none, some init.length,
       init.length + 1, []⟩ := by
    rw [produce_spec (init ++ [last]) hne frames_create]
    simp [frames_create]
  have hdec : mk_frames 0 (init ++ [last]) =
      mk_frames 0 init ++ [⟨last.map mk_command, true, init.length⟩] := by
    have := mk_frames_append init last 0
    simpa using this
  have hno : ∀ f ∈ mk_frames 0 init, f.fid ≠ init.length := by
    intro f hf
    have := (mk_frames_fid_lt init 0 f hf).2
    omega
  rw [hp]
  rw [frames_draw_latest_all_ok_success henv _ init.length
      (mk_frames 0 init)
      (⟨last.map mk_command, true, init.length⟩ : frame_object)
      rfl (by simpa using hdec) hno rfl rfl]
  have htr : ((mk_frames 0 init ++
        [(⟨last.map mk_command, true, init.length⟩ : frame_object)]).map
          (frame_events init.length)).flatten =
      expected_drain_trace (init ++ [last]) := by
    rw [← hdec]
    have := mk_frames_trace (init ++ [last]) hne 0
    have hL : (0 : Nat) + (init ++ [last]).length - 1 = init.length := by
      simp
    rw [hL] at this
    exact this
  rw [htr]

/-- Witness for C3 at a concrete production: two frames, the first with one
command (all three callbacks present), the second with one command. -/
theorem C3_no_lost_updates_witness :
    frames_draw_latest all_ok_env
        (produce frames_create [[(⟨true, true, true⟩, 7)], [(⟨true, true, true⟩, 9)]]) =
      (FRAMES_STATUS_SUCCESS,
       ⟨[], none, none, 2, [1]⟩,
       expected_drain_trace [[(⟨true, true, true⟩, 7)], [(⟨true, true, true⟩, 9)]] ++
         [event.present]) :=
  C3_no_lost_updates all_ok_env all_ok_env_all_ok
    [[(⟨true, true, true⟩, 7)]] [(⟨true, true, true⟩, 9)]

/-- C10: a frame containing zero commands is valid: `frames_start`
immediately followed by `frames_end` (no `frames_enqueue_command` calls)
succeeds, and a `frames_draw_latest` call then processes the empty frame,
returns `FRAMES_STATUS_SUCCESS` with exactly one present (the whole event
trace is the single present), and leaves `latest_frame` null. -/
theorem C10_empty_frame_valid (env : callback_env) (henv : env_all_ok env)
    (s : frames_object) (hq : s.frame_queues = []) :
    ∃ s2, frames_end (frames_start s).2 = some s2 ∧
      frames_draw_latest env s2 =
        (FRAMES_STATUS_SUCCESS,
         { s2 with frame_queues := [], latest_frame := none,
                   rendered_fids := s.next_fid :: s2.rendered_fids },
         [event.present]) := by
  refine ⟨{ s with
             frame_queues := s.frame_queues ++ [⟨[], true, s.next_fid⟩]
             next_latest_frame := none
             latest_frame := some s.next_fid
             next_fid := s.next_fid + 1 }, ?_, ?_⟩
  · simp [frames_start, frames_end]
  · rw [frames_draw_latest_all_ok_success henv _ s.next_fid [] ⟨[], true, s.next_fid⟩
      rfl (by simp [hq]) (by simp) rfl rfl]
    simp [frame_events]

/-- Witness for C10 from a freshly created pipeline. -/
theorem C10_empty_frame_valid_witness :
    ∃ s2, frames_end (frames_start frames_create).2 = some s2 ∧
      frames_draw_latest all_ok_env s2 =
        (FRAMES_STATUS_SUCCESS,
         { s2 with frame_queues := [], latest_frame := none,
                   rendered_fids := frames_create.next_fid :: s2.rendered_fids },
         [event.present]) :=
  C10_empty_frame_valid all_ok_env all_ok_env_all_ok frames_create rfl

/-- C5: for every command in a frame of the FIFO consumed by a fully
successful `frames_draw_latest` (latest pointer `L` captured) or by
`frames_destroy`, the command's subtrace of the call is exactly
`command_events`: `update` first (if non-NULL), then `draw` (only if the
command's frame is the captured latest at rendering time, and never during
`frames_destroy`, whose subtrace is `command_events false`), then
`destroy` last (if non-NULL) — each invoked exactly once. -/
theorem C5_callback_order_once (env : callback_env) (henv : env_all_ok env)
    (s : frames_object) (L : Nat) (hl : s.latest_frame = some L)
    (hnd : (fifo_states s.frame_queues).Nodup)
    (f : frame_object) (hf : f ∈ s.frame_queues)
    (c : command_object) (hc : c ∈ f.commands) :
    evs_of c.state (frames_draw_latest env s).2.2 =
      command_events (f.fid == L) c ∧
    evs_of c.state (frames_destroy env s).2 = command_events false c := by
  constructor
  · rw [evs_of_draw_latest_all_ok henv s L hl]
    exact evs_of_fifo_mem c.state L f c hc rfl s.frame_queues hf hnd
  · have hD := destroy_frames_all_ok henv s.frame_queues
    simp only [frames_destroy, hD]
    exact evs_of_destroy_trace_mem c.state f c hc rfl s.frame_queues hf hnd

/-- Witness for C5: a single sealed frame holding one command with all
three callbacks, state pointer 5. -/
theorem C5_callback_order_once_witness :
    evs_of 5 (frames_draw_latest all_ok_env
        ⟨[⟨[⟨⟨true, true, true⟩, 5⟩], true, 0⟩], none, some 0, 1, []⟩).2.2 =
      command_events true ⟨⟨true, true, true⟩, 5⟩ ∧
    evs_of 5 (frames_destroy all_ok_env
        ⟨[⟨[⟨⟨true, true, true⟩, 5⟩], true, 0⟩], none, some 0, 1, []⟩).2 =
      command_events false ⟨⟨true, true, true⟩, 5⟩ :=
  C5_callback_order_once all_ok_env all_ok_env_all_ok
    ⟨[⟨[⟨⟨true, true, true⟩, 5⟩], true, 0⟩], none, some 0, 1, []⟩ 0 rfl
    (by decide) ⟨[⟨⟨true, true, true⟩, 5⟩], true, 0⟩ (by decide)
    ⟨⟨true, true, true⟩, 5⟩ (by decide)

/-- C8 (amended): when `latest_frame` refers to a sealed frame still
queued as the last of the FIFO — which is the case whenever no earlier
`frames_draw_latest` aborted with an error — and no callback fails, a
first `frames_draw_latest` returns the presented status
(`FRAMES_STATUS_SUCCESS`) and a second call with no intervening
`frames_end` returns `FRAMES_STATUS_NO_FRAMES` with the state unchanged
and an empty event trace (no callback, flush, or present: the GPU is not
touched). -/
theorem C8_empty_drain_idempotent (env env2 : callback_env)
    (henv : env_all_ok env) (s : frames_object) (L : Nat)
    (pre : List frame_object) (lastf : frame_object)
    (hl : s.latest_frame = some L)
    (hq : s.frame_queues = pre ++ [lastf])
    (hno : ∀ f ∈ pre, f.fid ≠ L)
    (hlast : lastf.fid = L) (hend : lastf.ended = true) :
    (frames_draw_latest env s).1 = FRAMES_STATUS_SUCCESS ∧
    frames_draw_latest env2 (frames_draw_latest env s).2.1 =
      (FRAMES_STATUS_NO_FRAMES, (frames_draw_latest env s).2.1, []) := by
  rw [frames_draw_latest_all_ok_success henv s L pre lastf hl hq hno hlast hend]
  exact ⟨rfl, by simp [frames_draw_latest]⟩

/-- Witness for C8 (amended): one sealed empty frame. -/
theorem C8_empty_drain_idempotent_witness :
    (frames_draw_latest all_ok_env
        ⟨[⟨[], true, 0⟩], none, some 0, 1, []⟩).1 = FRAMES_STATUS_SUCCESS ∧
    frames_draw_latest all_ok_env
        (frames_draw_latest all_ok_env
          ⟨[⟨[], true, 0⟩], none, some 0, 1, []⟩).2.1 =
      (FRAMES_STATUS_NO_FRAMES,
       (frames_draw_latest all_ok_env
          ⟨[⟨[], true, 0⟩], none, some 0, 1, []⟩).2.1, []) :=
  C8_empty_drain_idempotent all_ok_env all_ok_env all_ok_env_all_ok
    ⟨[⟨[], true, 0⟩], none, some 0, 1, []⟩ 0 [] ⟨[], true, 0⟩
    rfl rfl (by simp) rfl rfl

/-- Counterexample to C8 as stated: after a `frames_draw_latest` aborted
with an error (here: one sealed frame whose only command's `update`
returns false), `latest_frame` is left pointing at the frame that was
already dequeued, so two subsequent `frames_draw_latest` calls with no
intervening `frames_end` and all callbacks succeeding return
`FRAMES_STATUS_NO_END` twice: the first call's status is among the
claim's allowed first-call statuses ("presented or not-yet-ended"), but
the second call does not return `FRAMES_STATUS_NO_FRAMES` as the claim
requires. -/
theorem C8_counterexample :
    (frames_draw_latest ⟨fun _ => false, fun _ => true⟩
        (produce frames_create [[(⟨true, false, false⟩, 5)]])).1 =
      FRAMES_STATUS_ERROR ∧
    (frames_draw_latest all_ok_env
        (frames_draw_latest ⟨fun _ => false, fun _ => true⟩
          (produce frames_create [[(⟨true, false, false⟩, 5)]])).2.1).1 =
      FRAMES_STATUS_NO_END ∧
    (frames_draw_latest all_ok_env
        (frames_draw_latest all_ok_env
          (frames_draw_latest ⟨fun _ => false, fun _ => true⟩
            (produce frames_create [[(⟨true, false, false⟩, 5)]])).2.1).2.1).1 =
      FRAMES_STATUS_NO_END ∧
    FRAMES_STATUS_NO_END ≠ FRAMES_STATUS_NO_FRAMES := by
  refine ⟨rfl, rfl, rfl, by decide⟩

/-- C9: when a callback fails inside `frames_draw_latest` (on a state
whose captured latest can only be the last FIFO frame, as in every
reachable state, with distinct command state pointers), the call returns
`FRAMES_STATUS_ERROR`; the FIFO splits as `pre ++ fail :: post` with the
failing frame `fail` already removed and the result FIFO exactly `post`
(never re-inserted); no command of the failing frame receives any further
`update`/`draw`/`destroy` event from any later `frames_draw_latest` or
`frames_destroy` call; `latest_frame` is left unchanged (not cleared), so
the next `frames_draw_latest` does not return `FRAMES_STATUS_NO_FRAMES`. -/
theorem C9_error_abort_state (env : callback_env) (s : frames_object)
    (L : Nat) (hl : s.latest_frame = some L)
    (hlastonly : ∀ f ∈ s.frame_queues.dropLast, f.fid ≠ L)
    (hnd : (fifo_states s.frame_queues).Nodup)
    (herr : (frames_draw_latest env s).1 = FRAMES_STATUS_ERROR) :
    ∃ pre fail post, s.frame_queues = pre ++ fail :: post ∧
      (frames_draw_latest env s).2.1.frame_queues = post ∧
      (frames_draw_latest env s).2.1.latest_frame = some L ∧
      (∀ (env2 : callback_env) (c : command_object), c ∈ fail.commands →
        evs_of c.state
          (frames_draw_latest env2 (frames_draw_latest env s).2.1).2.2 = [] ∧
        evs_of c.state
          (frames_destroy env2 (frames_draw_latest env s).2.1).2 = []) ∧
      (∀ env2 : callback_env,
        (frames_draw_latest env2 (frames_draw_latest env s).2.1).1 ≠
          FRAMES_STATUS_NO_FRAMES) := by
  have hfail :
      (drain_frames env L s.frame_queues (some L) false false).failed = true := by
    by_contra hfc
    simp only [frames_draw_latest, hl] at herr
    rw [if_neg hfc] at herr
    by_cases he :
        (drain_frames env L s.frame_queues (some L) false false).ended = true
    · rw [if_pos he] at herr; simp at herr
    · rw [if_neg he] at herr; simp at herr
  obtain ⟨pre, fail, post, hsplit, hfifo, _, hlat⟩ :=
    drain_frames_failed_decomp env L s.frame_queues (some L) false false hfail
  have h1 : (frames_draw_latest env s).2.1.frame_queues =
      (drain_frames env L s.frame_queues (some L) false false).fifo := by
    simp [frames_draw_latest, hl, hfail]
  have h2 : (frames_draw_latest env s).2.1.latest_frame =
      (drain_frames env L s.frame_queues (some L) false false).latest := by
    simp [frames_draw_latest, hl, hfail]
  have hpre : ∀ f ∈ pre, f.fid ≠ L := by
    intro f hf
    apply hlastonly
    rw [hsplit, List.dropLast_append_cons]
    exact List.mem_append_left _ hf
  have hlatest : (frames_draw_latest env s).2.1.latest_frame = some L := by
    rw [h2]; exact hlat hpre
  have hfifo' : (frames_draw_latest env s).2.1.frame_queues = post := by
    rw [h1]; exact hfifo
  refine ⟨pre, fail, post, hsplit, hfifo', hlatest, ?_, ?_⟩
  · intro env2 c hc
    have hcnot : c.state ∉ fifo_states post := by
      rw [hsplit] at hnd
      rw [fifo_states_append, fifo_states_cons] at hnd
      rw [List.nodup_append] at hnd
      have hnd2 := hnd.2.1
      rw [List.nodup_append] at hnd2
      exact fun hmem =>
        hnd2.2.2 (List.mem_map.mpr ⟨c, hc, rfl⟩) hmem
    constructor
    · apply evs_of_draw_latest_not_mem
      rw [hfifo']
      exact hcnot
    · have hD : (frames_destroy env2 (frames_draw_latest env s).2.1).2 =
          (destroy_frames env2 (frames_draw_latest env s).2.1.frame_queues).1 := by
        simp [frames_destroy]
      rw [hD]
      apply evs_of_destroy_frames_not_mem
      rw [hfifo']
      exact hcnot
  · intro env2
    exact draw_latest_status_ne_no_frames env2 _ L hlatest

/-- Witness for C9: one sealed frame whose single command (state 5) has a
failing `update`; the failing input is concrete and every hypothesis is
discharged by evaluation. -/
theorem C9_error_abort_state_witness :
    ∃ pre fail post,
      (produce frames_create [[(⟨true, false, false⟩, 5)]]).frame_queues =
        pre ++ fail :: post ∧
      (frames_draw_latest ⟨fun _ => false, fun _ => true⟩
          (produce frames_create
            [[(⟨true, false, false⟩, 5)]])).2.1.frame_queues = post ∧
      (frames_draw_latest ⟨fun _ => false, fun _ => true⟩
          (produce frames_create
            [[(⟨true, false, false⟩, 5)]])).2.1.latest_frame = some 0 ∧
      (∀ (env2 : callback_env) (c : command_object), c ∈ fail.commands →
        evs_of c.state
          (frames_draw_latest env2
            (frames_draw_latest ⟨fun _ => false, fun _ => true⟩
              (produce frames_create
                [[(⟨true, false, false⟩, 5)]])).2.1).2.2 = [] ∧
        evs_of c.state
          (frames_destroy env2
            (frames_draw_latest ⟨fun _ => false, fun _ => true⟩
              (produce frames_create
                [[(⟨true, false, false⟩, 5)]])).2.1).2 = []) ∧
      (∀ env2 : callback_env,
        (frames_draw_latest env2
          (frames_draw_latest ⟨fun _ => false, fun _ => true⟩
            (produce frames_create
              [[(⟨true, false, false⟩, 5)]])).2.1).1 ≠
          FRAMES_STATUS_NO_FRAMES) :=
  C9_error_abort_state ⟨fun _ => false, fun _ => true⟩
    (produce frames_create [[(⟨true, false, false⟩, 5)]]) 0
    rfl (by decide) (by decide) rfl

/-- C1 (amended): if during `frames_draw_latest` some command's `update`
or `draw` callback returns false (the drain fails), the call aborts
immediately with `FRAMES_STATUS_ERROR`, and the frames still queued in the
FIFO at that moment — those after the failing frame — remain queued (the
result FIFO is exactly that suffix, none dropped); but the failing frame
itself was already dequeued and is not re-inserted, so a subsequent
`frames_draw_latest` cannot resume it; `latest_frame` is unchanged, so the
subsequent call re-enters the drain loop (it does not report
no-new-frame) and proceeds with the remaining queued frames. -/
theorem C1_error_abort_keeps_queued (env : callback_env) (s : frames_object)
    (L : Nat) (hl : s.latest_frame = some L)
    (hlastonly : ∀ f ∈ s.frame_queues.dropLast, f.fid ≠ L)
    (hfailed :
      (drain_frames env L s.frame_queues (some L) false false).failed = true) :
    (frames_draw_latest env s).1 = FRAMES_STATUS_ERROR ∧
    (∃ pre fail, s.frame_queues =
        pre ++ fail :: (frames_draw_latest env s).2.1.frame_queues) ∧
    (frames_draw_latest env s).2.1.latest_frame = some L ∧
    ∀ env2 : callback_env,
      (frames_draw_latest env2 (frames_draw_latest env s).2.1).1 ≠
        FRAMES_STATUS_NO_FRAMES := by
  obtain ⟨pre, fail, post, hsplit, hfifo, _, hlat⟩ :=
    drain_frames_failed_decomp env L s.frame_queues (some L) false false hfailed
  have h1 : (frames_draw_latest env s).2.1.frame_queues =
      (drain_frames env L s.frame_queues (some L) false false).fifo := by
    simp [frames_draw_latest, hl, hfailed]
  have h2 : (frames_draw_latest env s).2.1.latest_frame =
      (drain_frames env L s.frame_queues (some L) false false).latest := by
    simp [frames_draw_latest, hl, hfailed]
  have hpre : ∀ f ∈ pre, f.fid ≠ L := by
    intro f hf
    apply hlastonly
    rw [hsplit, List.dropLast_append_cons]
    exact List.mem_append_left _ hf
  have hlatest : (frames_draw_latest env s).2.1.latest_frame = some L := by
    rw [h2]; exact hlat hpre
  refine ⟨?_, ⟨pre, fail, ?_⟩, hlatest, ?_⟩
  · simp [frames_draw_latest, hl, hfailed]
  · rw [h1, hfifo]; exact hsplit
  · intro env2
    exact draw_latest_status_ne_no_frames env2 _ L hlatest

/-- Witness for C1 (amended): a sealed frame with commands A (state 1, all
callbacks succeed) and B (state 2, `draw` fails), as in the spec's
scenario. -/
theorem C1_error_abort_keeps_queued_witness :
    (frames_draw_latest ⟨fun _ => true, fun p => p != 2⟩
        (produce frames_create
          [[(⟨true, true, true⟩, 1), (⟨true, true, true⟩, 2)]])).1 =
      FRAMES_STATUS_ERROR ∧
    (∃ pre fail,
      (produce frames_create
          [[(⟨true, true, true⟩, 1), (⟨true, true, true⟩, 2)]]).frame_queues =
        pre ++ fail ::
          (frames_draw_latest ⟨fun _ => true, fun p => p != 2⟩
            (produce frames_create
              [[(⟨true, true, true⟩, 1),
                (⟨true, true, true⟩, 2)]])).2.1.frame_queues) ∧
    (frames_draw_latest ⟨fun _ => true, fun p => p != 2⟩
        (produce frames_create
          [[(⟨true, true, true⟩, 1),
            (⟨true, true, true⟩, 2)]])).2.1.latest_frame = some 0 ∧
    ∀ env2 : callback_env,
      (frames_draw_latest env2
        (frames_draw_latest ⟨fun _ => true, fun p => p != 2⟩
          (produce frames_create
            [[(⟨true, true, true⟩, 1),
              (⟨true, true, true⟩, 2)]])).2.1).1 ≠
        FRAMES_STATUS_NO_FRAMES :=
  C1_error_abort_keeps_queued ⟨fun _ => true, fun p => p != 2⟩
    (produce frames_create
      [[(⟨true, true, true⟩, 1), (⟨true, true, true⟩, 2)]]) 0
    rfl (by decide) (by decide)

/-- Counterexample to C1 as stated: the spec's own scenario — one sealed
frame with commands A (state 1, callbacks succeed) and B (state 2, `draw`
fails).  The call aborts with `FRAMES_STATUS_ERROR`, but the failing frame
is NOT still queued (the FIFO is empty afterwards: it was dequeued before
its commands ran and is never re-inserted), and the subsequent
`frames_draw_latest` with all callbacks succeeding does not resume it to
completion: it returns `FRAMES_STATUS_NO_END` with an empty event trace —
in particular B's `destroy` never runs and no present happens. -/
theorem C1_counterexample :
    (frames_draw_latest ⟨fun _ => true, fun p => p != 2⟩
        (produce frames_create
          [[(⟨true, true, true⟩, 1), (⟨true, true, true⟩, 2)]])).1 =
      FRAMES_STATUS_ERROR ∧
    (frames_draw_latest ⟨fun _ => true, fun p => p != 2⟩
        (produce frames_create
          [[(⟨true, true, true⟩, 1),
            (⟨true, true, true⟩, 2)]])).2.1.frame_queues = [] ∧
    frames_draw_latest all_ok_env
        (frames_draw_latest ⟨fun _ => true, fun p => p != 2⟩
          (produce frames_create
            [[(⟨true, true, true⟩, 1), (⟨true, true, true⟩, 2)]])).2.1 =
      (FRAMES_STATUS_NO_END,
       (frames_draw_latest ⟨fun _ => true, fun p => p != 2⟩
          (produce frames_create
            [[(⟨true, true, true⟩, 1), (⟨true, true, true⟩, 2)]])).2.1,
       []) :=
  ⟨rfl, rfl, rfl⟩

/-! ## Reachable pipeline states and the latest-frame invariant (C2) -/

/-- One public pipeline operation.  `frames_enqueue_command` and
`frames_end` step only when their asserted precondition (a frame in
progress) holds; `frames_draw_latest` steps under any callback
environment. -/
inductive pipeline_step : frames_object → frames_object → Prop
  | start (s : frames_object) : pipeline_step s (frames_start s).2
  | enqueue (s s' : frames_object) (funcs : command_funcs) (state : Nat)
      (h : frames_enqueue_command s funcs state = some s') :
      pipeline_step s s'
  | endf (s s' : frames_object) (h : frames_end s = some s') :
      pipeline_step s s'
  | draw (s : frames_object) (env : callback_env) :
      pipeline_step s (frames_draw_latest env s).2.1

/-- States reachable from `frames_create` by pipeline operations. -/
def pipeline_reachable : frames_object → Prop :=
  Relation.ReflTransGen pipeline_step frames_create

/-- The inductive invariant of the pipeline. -/
structure pipeline_inv (s : frames_object) : Prop where
  fifo_ended : ∀ f ∈ s.frame_queues, f.ended = true
  fifo_fresh : ∀ f ∈ s.frame_queues, f.fid < s.next_fid
  next_fresh : ∀ f, s.next_latest_frame = some f →
    f.ended = false ∧ f.fid < s.next_fid ∧
    s.latest_frame ≠ some f.fid ∧ f.fid ∉ s.rendered_fids
  latest_fresh : ∀ i, s.latest_frame = some i → i < s.next_fid
  latest_not_rendered : ∀ i, s.latest_frame = some i → i ∉ s.rendered_fids
  rendered_fresh : ∀ i ∈ s.rendered_fids, i < s.next_fid

lemma pipeline_inv_init : pipeline_inv frames_create := by
  constructor <;> simp [frames_create]

/-- Frames left in the FIFO by a drain were already in it. -/
lemma drain_frames_fifo_mem (env : callback_env) (L : Nat) :
    ∀ (fifo : List frame_object) (lf : Option Nat) (e m : Bool) (f : frame_object),
      f ∈ (drain_frames env L fifo lf e m).fifo → f ∈ fifo := by
  intro fifo
  induction fifo with
  | nil => intro lf e m f h; simp [drain_frames] at h
  | cons g rest ih =>
    intro lf e m f h
    cases hdn : (g.fid == L) with
    | true =>
      by_cases hf : (run_commands env true g.commands).2 = true
      · simp [drain_frames, hdn, hf] at h
        exact List.mem_cons_of_mem g h
      · simp only [drain_frames, hdn, hf] at h
        simp at h
        exact List.mem_cons_of_mem g (ih _ _ _ f h)
    | false =>
      by_cases hf : (run_commands env false g.commands).2 = true
      · simp [drain_frames, hdn, hf] at h
        exact List.mem_cons_of_mem g h
      · simp only [drain_frames, hdn, hf] at h
        simp at h
        exact List.mem_cons_of_mem g (ih _ _ _ f h)

/-- The drain can only keep or clear the `latest_frame` field. -/
lemma drain_frames_latest_cases (env : callback_env) (L : Nat) :
    ∀ (fifo : List frame_object) (lf : Option Nat) (e m : Bool),
      (drain_frames env L fifo lf e m).latest = lf ∨
      (drain_frames env L fifo lf e m).latest = none := by
  intro fifo
  induction fifo with
  | nil => intro lf e m; left; simp [drain_frames]
  | cons g rest ih =>
    intro lf e m
    cases hdn : (g.fid == L) with
    | true =>
      by_cases hf : (run_commands env true g.commands).2 = true
      · left; simp [drain_frames, hdn, hf]
      · have heq : (drain_frames env L (g :: rest) lf e m).latest =
            (drain_frames env L rest
              (if lf == some L then none else lf) g.ended true).latest := by
          simp [drain_frames, hdn, hf]
        rw [heq]
        rcases ih (if lf == some L then none else lf) g.ended true with h | h
        · rw [h]
          by_cases hlf : (lf == some L) = true
          · right; simp [hlf]
          · left; simp [hlf]
        · right; exact h
    | false =>
      by_cases hf : (run_commands env false g.commands).2 = true
      · left; simp [drain_frames, hdn, hf]
      · have heq : (drain_frames env L (g :: rest) lf e m).latest =
            (drain_frames env L rest lf e m).latest := by
          simp [drain_frames, hdn, hf]
        rw [heq]
        exact ih lf e m

/-- Once the drain has matched the captured latest (starting from a field
equal to it), the field has been cleared. -/
lemma drain_frames_matched_latest (env : callback_env) (L : Nat) :
    ∀ (fifo : List frame_object) (e : Bool),
      (drain_frames env L fifo (some L) e false).matched = true →
      (drain_frames env L fifo (some L) e false).latest = none := by
  intro fifo
  induction fifo with
  | nil => intro e h; simp [drain_frames] at h
  | cons g rest ih =>
    intro e h
    cases hdn : (g.fid == L) with
    | true =>
      by_cases hf : (run_commands env true g.commands).2 = true
      · simp [drain_frames, hdn, hf] at h
      · have heq : (drain_frames env L (g :: rest) (some L) e false).latest =
            (drain_frames env L rest none g.ended true).latest := by
          simp [drain_frames, hdn, hf]
        rw [heq]
        rcases drain_frames_latest_cases env L rest none g.ended true with hc | hc
          <;> exact hc
    | false =>
      by_cases hf : (run_commands env false g.commands).2 = true
      · simp [drain_frames, hdn, hf] at h
      · have hm : (drain_frames env L (g :: rest) (some L) e false).matched =
            (drain_frames env L rest (some L) e false).matched := by
          simp [drain_frames, hdn, hf]
        have heq : (drain_frames env L (g :: rest) (some L) e false).latest =
            (drain_frames env L rest (some L) e false).latest := by
          simp [drain_frames, hdn, hf]
        rw [heq]
        exact ih e (hm ▸ h)

/-- The post-state of `frames_draw_latest` when the latest pointer is
non-null, in terms of the drain's results (the same in all three status
branches). -/
lemma frames_draw_latest_state (env : callback_env) (s : frames_object)
    (L : Nat) (hl : s.latest_frame = some L) :
    (frames_draw_latest env s).2.1 =
      { s with
          frame_queues :=
            (drain_frames env L s.frame_queues (some L) false false).fifo
          latest_frame :=
            (drain_frames env L s.frame_queues (some L) false false).latest
          rendered_fids :=
            if (drain_frames env L s.frame_queues (some L) false false).matched
            then L :: s.rendered_fids else s.rendered_fids } := by
  simp only [frames_draw_latest, hl]
  by_cases hf :
      (drain_frames env L s.frame_queues (some L) false false).failed = true
  · simp [hf]
  · by_cases he :
        (drain_frames env L s.frame_queues (some L) false false).ended = true
    · simp [hf, he]
    · simp [hf, he]

lemma pipeline_inv_step {s s' : frames_object}
    (hinv : pipeline_inv s) (hstep : pipeline_step s s') : pipeline_inv s' := by
  cases hstep with
  | start =>
    refine ⟨?_, ?_, ?_, ?_, ?_, ?_⟩
    · exact hinv.fifo_ended
    · intro f hf
      exact Nat.lt_succ_of_lt (hinv.fifo_fresh f hf)
    · intro f hf
      simp only [frames_start, Option.some_inj] at hf
      subst hf
      refine ⟨rfl, Nat.lt_succ_self _, ?_, ?_⟩
      · intro hcontra
        simp only [frames_start] at hcontra
        exact absurd (hinv.latest_fresh _ hcontra) (by simp)
      · intro hmem
        exact absurd (hinv.rendered_fresh _ hmem) (by simp)
    · intro i hi
      simp only [frames_start] at hi
      exact Nat.lt_succ_of_lt (hinv.latest_fresh i hi)
    · intro i hi
      simp only [frames_start] at hi
      exact hinv.latest_not_rendered i hi
    · intro i hi
      exact Nat.lt_succ_of_lt (hinv.rendered_fresh i hi)
  | enqueue s' funcs state h =>
    cases hnl : s.next_latest_frame with
    | none => simp [frames_enqueue_command, hnl] at h
    | some frame =>
      simp only [frames_enqueue_command, hnl, Option.some_inj] at h
      subst h
      obtain ⟨hend, hfid, hlat, hren⟩ := hinv.next_fresh frame hnl
      refine ⟨hinv.fifo_ended, hinv.fifo_fresh, ?_, hinv.latest_fresh,
        hinv.latest_not_rendered, hinv.rendered_fresh⟩
      intro f hf
      simp only [Option.some_inj] at hf
      subst hf
      exact ⟨hend, hfid, hlat, hren⟩
  | endf s' h =>
    cases hnl : s.next_latest_frame with
    | none => simp [frames_end, hnl] at h
    | some frame =>
      simp only [frames_end, hnl, Option.some_inj] at h
      subst h
      obtain ⟨hend, hfid, hlat, hren⟩ := hinv.next_fresh frame hnl
      refine ⟨?_, ?_, ?_, ?_, ?_, hinv.rendered_fresh⟩
      · intro f hf
        rcases List.mem_append.mp hf with hf | hf
        · exact hinv.fifo_ended f hf
        · simp at hf; subst hf; rfl
      · intro f hf
        rcases List.mem_append.mp hf with hf | hf
        · exact hinv.fifo_fresh f hf
        · simp at hf; subst hf; exact hfid
      · intro f hf; simp at hf
      · intro i hi
        simp only [Option.some_inj] at hi
        subst hi; exact hfid
      · intro i hi
        simp only [Option.some_inj] at hi
        subst hi; exact hren
  | draw env =>
    cases hl : s.latest_frame with
    | none =>
      have : (frames_draw_latest env s).2.1 = s := by
        simp [frames_draw_latest, hl]
      rw [this]; exact hinv
    | some L =>
      rw [frames_draw_latest_state env s L hl]
      have hmem := drain_frames_fifo_mem env L s.frame_queues (some L)
        false false
      have hLfresh : L < s.next_fid := hinv.latest_fresh L hl
      refine ⟨?_, ?_, ?_, ?_, ?_, ?_⟩
      · intro f hf
        exact hinv.fifo_ended f (hmem f hf)
      · intro f hf
        exact hinv.fifo_fresh f (hmem f hf)
      · intro f hf
        simp only at hf
        obtain ⟨hend, hfid, hlat, hren⟩ := hinv.next_fresh f hf
        refine ⟨hend, hfid, ?_, ?_⟩
        · rcases drain_frames_latest_cases env L s.frame_queues (some L)
            false false with hc | hc
          · simp only [hc]
            rw [← hl]; exact hlat
          · simp [hc]
        · simp only
          by_cases hm :
              (drain_frames env L s.frame_queues (some L) false false).matched
                = true
          · rw [if_pos hm]
            intro hcontra
            rcases List.mem_cons.mp hcontra with hfl | hfl
            · exact hlat (by rw [hl, hfl])
            · exact hren hfl
          · rw [if_neg hm]; exact hren
      · intro i hi
        simp only at hi
        rcases drain_frames_latest_cases env L s.frame_queues (some L)
          false false with hc | hc
        · rw [hc, Option.some_inj] at hi
          subst hi; exact hLfresh
        · rw [hc] at hi; cases hi
      · intro i hi
        simp only at hi ⊢
        rcases drain_frames_latest_cases env L s.frame_queues (some L)
          false false with hc | hc
        · rw [hc, Option.some_inj] at hi
          subst hi
          by_cases hm :
              (drain_frames env L s.frame_queues (some L) false false).matched
                = true
          · exfalso
            have := drain_frames_matched_latest env L s.frame_queues false hm
            rw [this] at hc
            cases hc
          · rw [if_neg hm]
            exact hinv.latest_not_rendered L hl
        · rw [hc] at hi; cases hi
      · intro i hi
        simp only at hi
        by_cases hm :
            (drain_frames env L s.frame_queues (some L) false false).matched
              = true
        · rw [if_pos hm] at hi
          rcases List.mem_cons.mp hi with hil | hil
          · subst hil; exact hLfresh
          · exact hinv.rendered_fresh i hil
        · rw [if_neg hm] at hi
          exact hinv.rendered_fresh i hi

/-- C2: in every reachable pipeline state, a non-null `latest_frame`
refers to a frame whose `ended` flag is true — a frame with
`ended == false` (in the FIFO or in progress) is never observable as the
latest — and `latest_frame` is never an already-rendered frame's identity
(once cleared it is never set back; `rendered_fids` is the history of
frames processed as the matched latest). -/
theorem C2_latest_always_ended (s : frames_object)
    (hreach : pipeline_reachable s) :
    (∀ f, (f ∈ s.frame_queues ∨ s.next_latest_frame = some f) →
      s.latest_frame = some f.fid → f.ended = true) ∧
    (∀ i, s.latest_frame = some i → i ∉ s.rendered_fids) := by
  have hinv : pipeline_inv s := by
    induction hreach with
    | refl => exact pipeline_inv_init
    | tail _ hstep ih => exact pipeline_inv_step ih hstep
  refine ⟨?_, hinv.latest_not_rendered⟩
  intro f hf hlat
  rcases hf with hf | hf
  · exact hinv.fifo_ended f hf
  · exact absurd hlat (hinv.next_fresh f hf).2.2.1

/-- Witness for C2 at the state reached by `frames_start` then
`frames_end` from a fresh pipeline. -/
theorem C2_latest_always_ended_witness :
    (∀ f, (f ∈ (⟨[⟨[], true, 0⟩], none, some 0, 1, []⟩ :
          frames_object).frame_queues ∨
        (⟨[⟨[], true, 0⟩], none, some 0, 1, []⟩ :
          frames_object).next_latest_frame = some f) →
      (⟨[⟨[], true, 0⟩], none, some 0, 1, []⟩ :
          frames_object).latest_frame = some f.fid → f.ended = true) ∧
    (∀ i, (⟨[⟨[], true, 0⟩], none, some 0, 1, []⟩ :
          frames_object).latest_frame = some i →
      i ∉ (⟨[⟨[], true, 0⟩], none, some 0, 1, []⟩ :
          frames_object).rendered_fids) :=
  C2_latest_always_ended ⟨[⟨[], true, 0⟩], none, some 0, 1, []⟩
    (Relation.ReflTransGen.tail
      (Relation.ReflTransGen.tail Relation.ReflTransGen.refl
        (pipeline_step.start frames_create))
      (pipeline_step.endf (frames_start frames_create).2
        ⟨[⟨[], true, 0⟩], none, some 0, 1, []⟩ rfl))

/-! ## Render-thread shutdown handshake (`src/main/private/prog.c`, C6)

The render loop of `render_thread_func` (lines 556-612) and the shutdown
sequence of `render_thread_deinit` (lines 676-685), as a two-thread
transition system over a sequentially consistent interleaving (the C code
pairs the release-set of `quit_status` with the acquire in the loop so
that the final post is observed after the quit flag).  The render-loop
body (drawing and pacing) is a single abstract step; the error exits from
the loop (semaphore failure, `FRAMES_STATUS_ERROR`), which jump straight
to the deinit wait after setting `quit_status`, are not modelled — the
claim concerns a shutdown request reaching a normally running loop. -/

/-- Program counter of the render thread: blocked in
`SDL_SemWait(render_now_sem)`; checking `quit_status`; the draw/pacing
body; blocked in `SEM_WAIT(deinit_render_sem)` after breaking out of the
loop; returned. -/
inductive render_pc where
  | atWait
  | atCheck
  | atBody
  | atDeinitWait
  | done
  deriving Repr, DecidableEq

/-- Program counter of the main thread's shutdown path: the release-set of
`quit_status` (performed by the quit requester before
`render_thread_deinit` runs), `SEM_POST(deinit_render_sem)`, the single
extra `SDL_SemPost(render_now_sem)`, `SDL_WaitThread`, joined. -/
inductive main_pc where
  | mSetQuit
  | mPostDeinit
  | mPostRenderNow
  | mJoin
  | mDone
  deriving Repr, DecidableEq

/-- A configuration of the two threads and the two semaphore counters.
`quit` is `quit_status != QUIT_NOT`. -/
structure handoff_config where
  rpc : render_pc
  mpc : main_pc
  render_now : Nat
  deinit : Nat
  quit : Bool
  deriving Repr, DecidableEq

/-- One interleaved step of either thread.  A semaphore wait is enabled
exactly when the counter is positive; a post increments it. -/
inductive handoff_step : handoff_config → handoff_config → Prop
  | render_wait (c : handoff_config) (h : c.rpc = render_pc.atWait)
      (hn : 0 < c.render_now) :
      handoff_step c { c with rpc := render_pc.atCheck
                              render_now := c.render_now - 1 }
  | render_check_quit (c : handoff_config) (h : c.rpc = render_pc.atCheck)
      (hq : c.quit = true) :
      handoff_step c { c with rpc := render_pc.atDeinitWait }
  | render_check_go (c : handoff_config) (h : c.rpc = render_pc.atCheck)
      (hq : c.quit = false) :
      handoff_step c { c with rpc := render_pc.atBody }
  | render_body (c : handoff_config) (h : c.rpc = render_pc.atBody) :
      handoff_step c { c with rpc := render_pc.atWait }
  | render_deinit_wait (c : handoff_config)
      (h : c.rpc = render_pc.atDeinitWait) (hd : 0 < c.deinit) :
      handoff_step c { c with rpc := render_pc.done
                              deinit := c.deinit - 1 }
  | main_set_quit (c : handoff_config) (h : c.mpc = main_pc.mSetQuit) :
      handoff_step c { c with mpc := main_pc.mPostDeinit, quit := true }
  | main_post_deinit (c : handoff_config) (h : c.mpc = main_pc.mPostDeinit) :
      handoff_step c { c with mpc := main_pc.mPostRenderNow
                              deinit := c.deinit + 1 }
  | main_post_render_now (c : handoff_config)
      (h : c.mpc = main_pc.mPostRenderNow) :
      handoff_step c { c with mpc := main_pc.mJoin
                              render_now := c.render_now + 1 }
  | main_join (c : handoff_config) (h : c.mpc = main_pc.mJoin)
      (hr : c.rpc = render_pc.done) :
      handoff_step c { c with mpc := main_pc.mDone }

/-- Initial configurations: the shutdown request may arrive with the
render thread at any point of its loop (also already at the deinit wait),
with any number of pending `render_now` posts; `deinit_render_sem` was
created with count 0 and is posted only by `render_thread_deinit`. -/
def handoff_init (c : handoff_config) : Prop :=
  c.mpc = main_pc.mSetQuit ∧ c.deinit = 0 ∧ c.rpc ≠ render_pc.done

/-- Both threads finished: render thread returned, main thread joined it. -/
def handoff_final (c : handoff_config) : Prop :=
  c.rpc = render_pc.done ∧ c.mpc = main_pc.mDone

def render_rank : render_pc → Nat
  | render_pc.atCheck => 2
  | render_pc.atBody => 1
  | render_pc.atDeinitWait => 1
  | render_pc.atWait => 0
  | render_pc.done => 0

def main_remaining : main_pc → Nat
  | main_pc.mSetQuit => 4
  | main_pc.mPostDeinit => 3
  | main_pc.mPostRenderNow => 2
  | main_pc.mJoin => 1
  | main_pc.mDone => 0

/-- Ranking function: every step strictly decreases it. -/
def handoff_measure (c : handoff_config) : Nat :=
  4 * main_remaining c.mpc + 3 * c.render_now + 3 * c.deinit +
    render_rank c.rpc

lemma handoff_measure_decreases {c c' : handoff_config}
    (h : handoff_step c c') : handoff_measure c' < handoff_measure c := by
  cases h with
  | render_wait h hn =>
    simp [handoff_measure, render_rank, h]; omega
  | render_check_quit h hq =>
    simp [handoff_measure, render_rank, h]
  | render_check_go h hq =>
    simp [handoff_measure, render_rank, h]
  | render_body h =>
    simp [handoff_measure, render_rank, h]
  | render_deinit_wait h hd =>
    simp [handoff_measure, render_rank, h]; omega
  | main_set_quit h =>
    simp [handoff_measure, main_remaining, h]
  | main_post_deinit h =>
    simp [handoff_measure, main_remaining, h]; omega
  | main_post_render_now h =>
    simp [handoff_measure, main_remaining, h]; omega
  | main_join h hr =>
    simp [handoff_measure, main_remaining, h]

/-- The main thread has already posted `deinit_render_sem`. -/
def main_posted (c : handoff_config) : Prop :=
  c.mpc = main_pc.mPostRenderNow ∨ c.mpc = main_pc.mJoin ∨
    c.mpc = main_pc.mDone

/-- The inductive invariant of the shutdown handshake. -/
structure handoff_inv (c : handoff_config) : Prop where
  quit_set : c.mpc ≠ main_pc.mSetQuit → c.quit = true
  deinit_absent : ¬ main_posted c → c.deinit = 0 ∧ c.rpc ≠ render_pc.done
  deinit_count : main_posted c →
    c.deinit = (if c.rpc = render_pc.done then 0 else 1)
  renderable : (c.mpc = main_pc.mJoin ∨ c.mpc = main_pc.mDone) →
    (c.rpc = render_pc.atWait ∨ c.rpc = render_pc.atBody) → 0 < c.render_now
  joined : c.mpc = main_pc.mDone → c.rpc = render_pc.done

lemma handoff_inv_init {c : handoff_config} (h : handoff_init c) :
    handoff_inv c := by
  obtain ⟨h1, h2, h3⟩ := h
  refine ⟨?_, ?_, ?_, ?_, ?_⟩
  · intro hc; exact absurd h1 hc
  · intro _; exact ⟨h2, h3⟩
  · intro hp
    rcases hp with hp | hp | hp <;> rw [h1] at hp <;> cases hp
  · intro hp
    rcases hp with hp | hp <;> rw [h1] at hp <;> cases hp
  · intro hp; rw [h1] at hp; cases hp

lemma handoff_inv_step {c c' : handoff_config} (hinv : handoff_inv c)
    (hstep : handoff_step c c') : handoff_inv c' := by
  cases hstep with
  | render_wait h hn =>
    refine ⟨?_, ?_, ?_, ?_, ?_⟩
    · intro hm; exact hinv.quit_set hm
    · intro hnp; exact ⟨(hinv.deinit_absent hnp).1, by simp⟩
    · intro hp
      have hdc := hinv.deinit_count hp
      rw [h] at hdc
      simp at hdc ⊢
      exact hdc
    · intro hj hr
      rcases hr with hr | hr <;> exact absurd hr (by simp)
    · intro hd
      have hj := hinv.joined hd
      rw [h] at hj
      exact absurd hj (by simp)
  | render_check_quit h hq =>
    refine ⟨?_, ?_, ?_, ?_, ?_⟩
    · intro hm; exact hinv.quit_set hm
    · intro hnp; exact ⟨(hinv.deinit_absent hnp).1, by simp⟩
    · intro hp
      have hdc := hinv.deinit_count hp
      rw [h] at hdc
      simp at hdc ⊢
      exact hdc
    · intro hj hr
      rcases hr with hr | hr <;> exact absurd hr (by simp)
    · intro hd
      have hj := hinv.joined hd
      rw [h] at hj
      exact absurd hj (by simp)
  | render_check_go h hq =>
    refine ⟨?_, ?_, ?_, ?_, ?_⟩
    · intro hm; exact hinv.quit_set hm
    · intro hnp; exact ⟨(hinv.deinit_absent hnp).1, by simp⟩
    · intro hp
      have hdc := hinv.deinit_count hp
      rw [h] at hdc
      simp at hdc ⊢
      exact hdc
    · intro hj _
      have hqt := hinv.quit_set ?_
      · rw [hq] at hqt; cases hqt
      · rcases hj with hj | hj <;> rw [hj] <;> decide
    · intro hd
      have hj := hinv.joined hd
      rw [h] at hj
      exact absurd hj (by simp)
  | render_body h =>
    refine ⟨?_, ?_, ?_, ?_, ?_⟩
    · intro hm; exact hinv.quit_set hm
    · intro hnp; exact ⟨(hinv.deinit_absent hnp).1, by simp⟩
    · intro hp
      have hdc := hinv.deinit_count hp
      rw [h] at hdc
      simp at hdc ⊢
      exact hdc
    · intro hj _
      exact hinv.renderable hj (Or.inr h)
    · intro hd
      have hj := hinv.joined hd
      rw [h] at hj
      exact absurd hj (by simp)
  | render_deinit_wait h hd =>
    refine ⟨?_, ?_, ?_, ?_, ?_⟩
    · intro hm; exact hinv.quit_set hm
    · intro hnp
      exact absurd (hinv.deinit_absent hnp).1 (by omega)
    · intro hp
      have hdc := hinv.deinit_count hp
      rw [h] at hdc
      simp at hdc ⊢
      omega
    · intro hj hr
      rcases hr with hr | hr <;> exact absurd hr (by simp)
    · intro _; rfl
  | main_set_quit h =>
    refine ⟨?_, ?_, ?_, ?_, ?_⟩
    · intro _; rfl
    · intro _
      refine hinv.deinit_absent ?_
      intro hp
      rcases hp with hp | hp | hp <;> rw [h] at hp <;> cases hp
    · intro hp
      rcases hp with hp | hp | hp <;> exact absurd hp (by simp)
    · intro hj _
      rcases hj with hj | hj <;> exact absurd hj (by simp)
    · intro hd
      exact absurd hd (by simp)
  | main_post_deinit h =>
    refine ⟨?_, ?_, ?_, ?_, ?_⟩
    · intro _; exact hinv.quit_set (by rw [h]; decide)
    · intro hnp
      exact absurd (Or.inl rfl) hnp
    · intro _
      have hda := hinv.deinit_absent ?_
      · obtain ⟨hd0, hrd⟩ := hda
        rw [if_neg hrd]
        show c.deinit + 1 = 1
        omega
      · intro hp
        rcases hp with hp | hp | hp <;> rw [h] at hp <;> cases hp
    · intro hj _
      rcases hj with hj | hj <;> exact absurd hj (by simp)
    · intro hd
      exact absurd hd (by simp)
  | main_post_render_now h =>
    refine ⟨?_, ?_, ?_, ?_, ?_⟩
    · intro _; exact hinv.quit_set (by rw [h]; decide)
    · intro hnp
      exact absurd (Or.inr (Or.inl rfl)) hnp
    · intro _
      exact hinv.deinit_count (Or.inl h)
    · intro _ _
      show 0 < c.render_now + 1
      omega
    · intro hd
      exact absurd hd (by simp)
  | main_join h hr =>
    refine ⟨?_, ?_, ?_, ?_, ?_⟩
    · intro _; exact hinv.quit_set (by rw [h]; decide)
    · intro hnp
      exact absurd (Or.inr (Or.inr rfl)) hnp
    · intro _
      exact hinv.deinit_count (Or.inr (Or.inl h))
    · intro _ hr2
      rcases hr2 with hr2 | hr2 <;> rw [hr] at hr2 <;> exact absurd hr2 (by simp)
    · intro _
      exact hr

/-- From every non-final invariant-satisfying configuration, some thread
can step: the handshake never deadlocks. -/
lemma handoff_progress {c : handoff_config} (hinv : handoff_inv c)
    (hnf : ¬ handoff_final c) : ∃ c', handoff_step c c' := by
  cases hm : c.mpc with
  | mSetQuit => exact ⟨_, handoff_step.main_set_quit c hm⟩
  | mPostDeinit => exact ⟨_, handoff_step.main_post_deinit c hm⟩
  | mPostRenderNow => exact ⟨_, handoff_step.main_post_render_now c hm⟩
  | mJoin =>
    cases hr : c.rpc with
    | done => exact ⟨_, handoff_step.main_join c hm hr⟩
    | atWait =>
      have hrn := hinv.renderable (Or.inl hm) (Or.inl hr)
      exact ⟨_, handoff_step.render_wait c hr hrn⟩
    | atCheck =>
      have hq := hinv.quit_set (by rw [hm]; decide)
      exact ⟨_, handoff_step.render_check_quit c hr hq⟩
    | atBody => exact ⟨_, handoff_step.render_body c hr⟩
    | atDeinitWait =>
      have hdc := hinv.deinit_count (Or.inr (Or.inl hm))
      rw [hr] at hdc
      simp at hdc
      exact ⟨_, handoff_step.render_deinit_wait c hr (by omega)⟩
  | mDone =>
    exact absurd ⟨hinv.joined hm, hm⟩ hnf

lemma handoff_inv_reachable {c0 c : handoff_config} (hinit : handoff_init c0)
    (hreach : Relation.ReflTransGen handoff_step c0 c) : handoff_inv c := by
  induction hreach with
  | refl => exact handoff_inv_init hinit
  | tail _ hstep ih => exact handoff_inv_step ih hstep

/-- C6: in the shutdown sequence the main thread, after signalling the
deinit semaphore, performs exactly one additional post of the render-now
semaphore (the single `main_post_render_now` step of its program), and
this guarantees the render thread's final semaphore waits complete: for a
shutdown request arriving with the render thread at any point of its loop
and any number of pending render-now posts, (a) no infinite run exists —
every execution terminates — and (b) the only configurations from which
no step is possible are those where the render thread has exited its loop
and returned and the main thread has joined it. -/
theorem C6_shutdown_always_joins (c0 : handoff_config)
    (hinit : handoff_init c0) :
    (∀ f : Nat → handoff_config, f 0 = c0 →
        (∀ n, handoff_step (f n) (f (n + 1))) → False) ∧
    (∀ c, Relation.ReflTransGen handoff_step c0 c →
        (∀ c', ¬ handoff_step c c') → handoff_final c) := by
  constructor
  · intro f _ hstep
    have hd : ∀ n, handoff_measure (f (n + 1)) < handoff_measure (f n) :=
      fun n => handoff_measure_decreases (hstep n)
    have hle : ∀ n, handoff_measure (f n) + n ≤ handoff_measure (f 0) := by
      intro n
      induction n with
      | zero => omega
      | succ k ih =>
        have := hd k
        omega
    have := hle (handoff_measure (f 0) + 1)
    omega
  · intro c hreach hstuck
    have hinv : handoff_inv c := handoff_inv_reachable hinit hreach
    by_contra hnf
    obtain ⟨c', hc'⟩ := handoff_progress hinv hnf
    exact hstuck c' hc'

/-- Witness for C6: the shutdown request arrives while the render thread
is blocked on the render-now semaphore with no pending posts — the exact
situation the extra post exists for. -/
theorem C6_shutdown_always_joins_witness :
    (∀ f : Nat → handoff_config,
        f 0 = ⟨render_pc.atWait, main_pc.mSetQuit, 0, 0, false⟩ →
        (∀ n, handoff_step (f n) (f (n + 1))) → False) ∧
    (∀ c, Relation.ReflTransGen handoff_step
        ⟨render_pc.atWait, main_pc.mSetQuit, 0, 0, false⟩ c →
        (∀ c', ¬ handoff_step c c') → handoff_final c) :=
  C6_shutdown_always_joins ⟨render_pc.atWait, main_pc.mSetQuit, 0, 0, false⟩
    ⟨rfl, rfl, by decide⟩

end DirectMedia
